import Mathlib

/-!
# Verification of the Scoreboard-as-DB storage engine, cache layer and relation resolver

Shallow embedding of the JavaScript sources:
* `ScoreboardStorage` (storage engine over Minecraft Bedrock scoreboard objectives),
* `CacheManager` (RAM mirror over the storage engine),
* `Relation` (binding registry and populate/hydration), in both the current
  variant (`Relation.js`) and the older variant shipped alongside the cache layer.

Modelling conventions, fixed once here:

* A JavaScript JSON-serializable value is `JValue` (numbers as `Int`: the
  documents in the repository store integer ids, levels and timestamps).
  The JavaScript value `undefined` is modelled as `none` in `JSData := Option JValue`;
  the JavaScript value `null` is `JValue.null`.
* A backing entry of an objective is a pair (participant string, score).  The
  participant string is represented by `Content`: `Content.json v` stands for
  the string `JSON.stringify` produces for `v`, and `Content.foreign s` stands
  for a string (written by another addon) on which `JSON.parse` fails.  The
  host scoreboard keys entries by the participant string, so `setScore`
  upserts by `Content` equality (spec §4.1: content is the identity key).
* `JSON.parse` of a stored participant, with the `try/catch` of `_parse`,
  yields the JavaScript value `jsParse c` (`JValue.null` both for the JSON
  text `null` and for a parse failure, exactly as in the source where both
  roads return `null`).
* An objective that does not exist behaves, for every operation modelled
  here, exactly like an objective with no participants (reads return
  null/[]/0/false without creating it; `_getObjective` creates it before any
  write), so the state of one collection is just its entry list `Objective`.
* Thrown `TypeError`/`RangeError` become `Except JsError`; a mutating
  operation returns the (possibly mutated) state together with the result,
  so a thrown error that leaves earlier mutations in place is representable.
  Error message strings follow the source (quote characters omitted).
* `for (const p of objective.getParticipants())` snapshots the participant
  array once; mutation during the loop does not change the iteration.  The
  mass `update` loop is modelled on that snapshot.
-/

/-- A JSON value as produced by `JSON.parse` / consumed by `JSON.stringify`. -/
inductive JValue where
  | null : JValue
  | bool (b : Bool) : JValue
  | num (n : Int) : JValue
  | str (s : String) : JValue
  | arr (elems : List JValue) : JValue
  | obj (fields : List (String × JValue)) : JValue

mutual

/-- Structural equality test on JSON values. -/
def JValue.beq : JValue → JValue → Bool
  | .null, .null => true
  | .bool a, .bool b => a == b
  | .num a, .num b => a == b
  | .str a, .str b => a == b
  | .arr xs, .arr ys => JValue.beqList xs ys
  | .obj fs, .obj gs => JValue.beqFields fs gs
  | _, _ => false

/-- Structural equality test on lists of JSON values. -/
def JValue.beqList : List JValue → List JValue → Bool
  | [], [] => true
  | x :: xs, y :: ys => JValue.beq x y && JValue.beqList xs ys
  | _, _ => false

/-- Structural equality test on field lists. -/
def JValue.beqFields : List (String × JValue) → List (String × JValue) → Bool
  | [], [] => true
  | kv :: fs, lw :: gs => (kv.1 == lw.1) && JValue.beq kv.2 lw.2 && JValue.beqFields fs gs
  | _, _ => false

end

mutual

theorem JValue.beq_iff : ∀ a b : JValue, JValue.beq a b = true ↔ a = b
  | .null, .null => by simp [JValue.beq]
  | .bool a, .bool b => by simp [JValue.beq]
  | .num a, .num b => by simp [JValue.beq]
  | .str a, .str b => by simp [JValue.beq]
  | .arr xs, .arr ys => by simp [JValue.beq, JValue.beqList_iff xs ys]
  | .obj fs, .obj gs => by simp [JValue.beq, JValue.beqFields_iff fs gs]
  | .null, .bool _ | .null, .num _ | .null, .str _ | .null, .arr _ | .null, .obj _
  | .bool _, .null | .bool _, .num _ | .bool _, .str _ | .bool _, .arr _ | .bool _, .obj _
  | .num _, .null | .num _, .bool _ | .num _, .str _ | .num _, .arr _ | .num _, .obj _
  | .str _, .null | .str _, .bool _ | .str _, .num _ | .str _, .arr _ | .str _, .obj _
  | .arr _, .null | .arr _, .bool _ | .arr _, .num _ | .arr _, .str _ | .arr _, .obj _
  | .obj _, .null | .obj _, .bool _ | .obj _, .num _ | .obj _, .str _ | .obj _, .arr _ => by
      simp [JValue.beq]

theorem JValue.beqList_iff : ∀ xs ys : List JValue, JValue.beqList xs ys = true ↔ xs = ys
  | [], [] => by simp [JValue.beqList]
  | [], _ :: _ => by simp [JValue.beqList]
  | _ :: _, [] => by simp [JValue.beqList]
  | x :: xs, y :: ys => by
      simp [JValue.beqList, JValue.beq_iff x y, JValue.beqList_iff xs ys]

theorem JValue.beqFields_iff :
    ∀ fs gs : List (String × JValue), JValue.beqFields fs gs = true ↔ fs = gs
  | [], [] => by simp [JValue.beqFields]
  | [], _ :: _ => by simp [JValue.beqFields]
  | _ :: _, [] => by simp [JValue.beqFields]
  | kv :: fs, lw :: gs => by
      rw [show (kv :: fs = lw :: gs) ↔ (kv = lw ∧ fs = gs) by simp]
      rw [show (kv = lw) ↔ (kv.1 = lw.1 ∧ kv.2 = lw.2) from Prod.ext_iff]
      simp [JValue.beqFields, JValue.beq_iff kv.2 lw.2, JValue.beqFields_iff fs gs, and_assoc]

end

instance : DecidableEq JValue := fun a b => decidable_of_iff _ (JValue.beq_iff a b)

/-- JavaScript `undefined` (`none`) or a defined JSON value. -/
abbrev JSData := Option JValue

/-- JSON string escaping of one character, as `JSON.stringify` does. -/
def escapeChar (c : Char) : String :=
  if c = '"' then "\\\""
  else if c = '\\' then "\\\\"
  else if c = '\n' then "\\n"
  else if c = '\t' then "\\t"
  else if c = '\r' then "\\r"
  else if c.toNat < 32 then "\\u00" ++ String.mk [Nat.digitChar (c.toNat / 16), Nat.digitChar (c.toNat % 16)]
  else String.singleton c

/-- JSON string escaping, as `JSON.stringify` does for string values. -/
def escapeString (s : String) : String :=
  String.join (s.toList.map escapeChar)

mutual

/-- `JSON.stringify` on a defined JSON value. -/
def stringify : JValue → String
  | .null => "null"
  | .bool b => if b then "true" else "false"
  | .num n => toString n
  | .str s => "\"" ++ escapeString s ++ "\""
  | .arr xs => "[" ++ stringifyList xs ++ "]"
  | .obj fs => "\x7b" ++ stringifyFields fs ++ "\x7d"

/-- Comma-separated serialization of array elements. -/
def stringifyList : List JValue → String
  | [] => ""
  | [x] => stringify x
  | x :: y :: rest => stringify x ++ "," ++ stringifyList (y :: rest)

/-- Comma-separated serialization of object fields. -/
def stringifyFields : List (String × JValue) → String
  | [] => ""
  | [kv] => "\"" ++ escapeString kv.1 ++ "\":" ++ stringify kv.2
  | kv :: kv2 :: rest =>
      "\"" ++ escapeString kv.1 ++ "\":" ++ stringify kv.2 ++ "," ++ stringifyFields (kv2 :: rest)

end

/-- The participant string of a backing entry: either the `JSON.stringify`
image of a value, or a foreign string on which `JSON.parse` fails. -/
inductive Content where
  | json (v : JValue) : Content
  | foreign (s : String) : Content
deriving DecidableEq

/-- `ScoreboardStorage._parse` applied to a stored participant string: the
parsed value, where both the JSON text `null` and a parse failure give the
JavaScript value `null` (the source returns `null` on both roads). -/
def jsParse : Content → JValue
  | .json v => v
  | .foreign _ => .null

/-- JavaScript truthiness of a JSON value (`NaN` cannot arise here). -/
def jsTruthy : JValue → Bool
  | .null => false
  | .bool b => b
  | .num n => n != 0
  | .str s => s != ""
  | .arr _ => true
  | .obj _ => true

/-- JavaScript strict equality `===` between two JSON values, where the two
sides come from distinct object graphs (a freshly parsed record versus a
caller value), so two objects or arrays are never reference-equal. -/
def jsStrictEq : JValue → JValue → Bool
  | .null, .null => true
  | .bool a, .bool b => a = b
  | .num a, .num b => a = b
  | .str a, .str b => a = b
  | _, _ => false

/-- JavaScript strict equality where the left side may be `undefined`. -/
def jsEqOpt : Option JValue → JValue → Bool
  | none, _ => false
  | some a, b => jsStrictEq a b

/-- JavaScript property read `v[k]` (`undefined` when absent or when `v` is
not an object; indexed access on arrays/strings is not used by the sources
with a string key that could hit an index). -/
def jvGet : JValue → String → Option JValue
  | .obj fs, k => (fs.find? (fun kv => kv.1 = k)).map (·.2)
  | _, _ => none

/-- Property read on an explicit field list. -/
def objGet (fs : List (String × JValue)) (k : String) : Option JValue :=
  (fs.find? (fun kv => kv.1 = k)).map (·.2)

/-- JavaScript property assignment `o[k] = v`: overwrite in place if the key
exists, append otherwise (JS objects keep insertion order). -/
def objSet (fs : List (String × JValue)) (k : String) (v : JValue) : List (String × JValue) :=
  if fs.any (fun kv => kv.1 = k) then
    fs.map (fun kv => if kv.1 = k then (k, v) else kv)
  else fs ++ [(k, v)]

/-- The fields contributed by a spread `{...v}`: object fields, array or
string elements under their index keys, nothing for other primitives. -/
def spreadFields : JValue → List (String × JValue)
  | .obj fs => fs
  | .arr xs => xs.enum.map (fun p => (toString p.1, p.2))
  | .str s => s.toList.enum.map (fun p => (toString p.1, JValue.str (String.singleton p.2)))
  | _ => []

/-- The object literal `{...a, ...b}`: fields of `a` overridden by fields of `b`. -/
def objMerge (a b : List (String × JValue)) : List (String × JValue) :=
  b.foldl (fun acc kv => objSet acc kv.1 kv.2) a

/-- A thrown JavaScript error (`TypeError` = InvalidArgument,
`RangeError` = SizeLimitExceeded in the spec taxonomy). -/
inductive JsError where
  | typeError (msg : String) : JsError
  | rangeError (msg : String) : JsError
deriving DecidableEq

/-- `true` exactly on the `error` case. -/
def Except.isErr : Except JsError α → Bool
  | .error _ => true
  | .ok _ => false

instance {ε α : Type} [DecidableEq ε] [DecidableEq α] : DecidableEq (Except ε α) := fun a b =>
  match a, b with
  | .ok x, .ok y => decidable_of_iff (x = y) (by simp)
  | .error x, .error y => decidable_of_iff (x = y) (by simp)
  | .ok _, .error _ => isFalse (fun h => Except.noConfusion h)
  | .error _, .ok _ => isFalse (fun h => Except.noConfusion h)

/-- The entry list of one scoreboard objective: (participant, score) pairs in
enumeration order.  A missing objective behaves like `[]` for every
operation modelled here. -/
abbrev Objective := List (Content × Int)

/-- Host scoreboard `setScore(content, id)`: upsert keyed by the participant
string (spec §4.1: the content is the identity key; an existing entry only
has its score overwritten). -/
def setScore (obj : Objective) (c : Content) (id : Int) : Objective :=
  if obj.any (fun e => e.1 = c) then
    obj.map (fun e => if e.1 = c then (c, id) else e)
  else obj ++ [(c, id)]

/-- Host scoreboard `removeParticipant`: removes the entry with the given
participant string. -/
def removeParticipant (obj : Objective) (c : Content) : Objective :=
  obj.eraseP (fun e => e.1 = c)

/-- Host scoreboard `getScore` by participant string (`none` = undefined). -/
def getScoreOf (obj : Objective) (c : Content) : Option Int :=
  (obj.find? (fun e => e.1 = c)).map (·.2)

namespace ScoreboardStorage

/-- `ScoreboardStorage._getNextId`: `max = 0`, raised by every participant
score, then `max + 1`. -/
def maxScore (obj : Objective) : Int :=
  obj.foldl (fun m e => if e.2 > m then e.2 else m) 0

/-- `ScoreboardStorage._getNextId` (the returned value). -/
def _getNextId (obj : Objective) : Int := maxScore obj + 1

/-- `ScoreboardStorage._stringify`: throws `TypeError` on `undefined`,
serializes, throws `RangeError` over 32767 characters.  In the embedding the
serialized string is represented by `Content.json v`, so the function
returns the checked value `v`. -/
def _stringify (data : JSData) : Except JsError JValue :=
  match data with
  | none => .error (.typeError "[ScoreboardStorage] Cannot save undefined data.")
  | some v =>
    let json := stringify v
    if json.length > 32767 then
      .error (.rangeError ("[ScoreboardStorage] Data size (" ++ toString json.length ++
        " chars) exceeds Minecrafts maximum limit of 32,767 characters. Consider splitting the data."))
    else .ok v

/-- `ScoreboardStorage.save`: get-or-create objective, stringify (validating),
next id by full scan, `setScore`, return the id.  Errors leave the entry
list unchanged. -/
def save (obj : Objective) (data : JSData) : Objective × Except JsError Int :=
  match _stringify data with
  | .error e => (obj, .error e)
  | .ok v =>
    let id := _getNextId obj
    (setScore obj (.json v) id, .ok id)

/-- `ScoreboardStorage.getElementById`: linear scan for the entry whose score
is `id`; parse it, or return `null` when absent (the source conflates the
null document, an unparsable entry and a missing id into `null`). -/
def getElementById (obj : Objective) (id : Int) : JValue :=
  match obj.find? (fun e => e.2 = id) with
  | some e => jsParse e.1
  | none => .null

/-- A query argument: an equality object (`{role: "admin"}`) or a predicate
function over the parsed document (spec §3: tagged variant). -/
inductive Query where
  | fields (q : List (String × JValue)) : Query
  | fn (f : JValue → Bool) : Query

/-- `for (const key in query) if (parsed[key] !== query[key]) mismatch`:
all listed fields must strictly equal (missing field mismatches). -/
def matchesFields (parsed : JValue) (q : List (String × JValue)) : Bool :=
  q.all (fun kv => jsEqOpt (jvGet parsed kv.1) kv.2)

/-- Query match as in `getElements`/`update`/`delete`/`count`. -/
def matchesQuery (parsed : JValue) : Query → Bool
  | .fields q => matchesFields parsed q
  | .fn f => f parsed

/-- `ScoreboardStorage.getElements`: scan, parse, keep entries whose parse is
not `null` and that match the query (no query matches everything), as
`{id, data}` pairs in enumeration order. -/
def getElements (obj : Objective) (query : Option Query) : List (Int × JValue) :=
  obj.foldr
    (fun e result =>
      let parsed := jsParse e.1
      if parsed ≠ .null then
        if (match query with
            | none => true
            | some q => matchesQuery parsed q) then
          (e.2, parsed) :: result
        else result
      else result)
    []

/-- `ScoreboardStorage.updateById`: validates `newData` (undefined) and
serializes (`_stringify` is called before the scan), then replaces the first
entry carrying `id`, keeping the id: `removeParticipant` followed by
`setScore(newJsonStr, id)`.  Returns the state and `true`/`false`/an error. -/
def updateById (obj : Objective) (id : Int) (newData : JSData) :
    Objective × Except JsError Bool :=
  match _stringify newData with
  | .error e => (obj, .error e)
  | .ok v =>
    match obj.find? (fun e => e.2 = id) with
    | some p => (setScore (removeParticipant obj p.1) (.json v) id, .ok true)
    | none => (obj, .ok false)

/-- The `newData` argument of the mass `update`: a value (merged over the old
document) or a transform callback (whose result may be `undefined`). -/
inductive NewData where
  | val (v : JValue) : NewData
  | fn (f : JValue → JSData) : NewData

/-- The body of `ScoreboardStorage.update`: iterates over the participant
array snapshot taken before the first mutation, while `obj` is the live
objective state.  For each snapshot entry: parse; on a query match read the
live score, remove the participant, build the merged/transformed document,
serialize it (inside the loop!) and `setScore` it under the same id.  A
serialization error propagates, leaving the mutations made so far in place.
If the participant was already removed from the live objective by an earlier
iteration, the host returns `undefined` for its score; that corner is
modelled as skipping the entry. -/
def updateLoop (snapshot : List (Content × Int)) (obj : Objective) (q : Query)
    (newData : NewData) (updatedCount : Nat) : Objective × Except JsError Nat :=
  match snapshot with
  | [] => (obj, .ok updatedCount)
  | p :: rest =>
    let parsed := jsParse p.1
    if parsed ≠ .null ∧ matchesQuery parsed q then
      match getScoreOf obj p.1 with
      | none => updateLoop rest obj q newData updatedCount
      | some id =>
        let obj1 := removeParticipant obj p.1
        let dataToSave : JSData :=
          match newData with
          | .fn f => f parsed
          | .val v => some (.obj (objMerge (spreadFields parsed) (spreadFields v)))
        match _stringify dataToSave with
        | .error e => (obj1, .error e)
        | .ok v => updateLoop rest (setScore obj1 (.json v) id) q newData (updatedCount + 1)
    else updateLoop rest obj q newData updatedCount

/-- `ScoreboardStorage.update` (mass update / merge). -/
def update (obj : Objective) (q : Query) (newData : NewData) :
    Objective × Except JsError Nat :=
  updateLoop obj obj q newData 0

/-- `ScoreboardStorage.deleteById`: removes the first entry carrying `id`. -/
def deleteById (obj : Objective) (id : Int) : Objective × Bool :=
  match obj.find? (fun e => e.2 = id) with
  | some p => (removeParticipant obj p.1, true)
  | none => (obj, false)

/-- The query argument of `exists`: a numeric id or an equality object. -/
inductive ExistsQuery where
  | byId (id : Int) : ExistsQuery
  | byFields (q : List (String × JValue)) : ExistsQuery

/-- The scan of `ScoreboardStorage.exists` with a query, instrumented: the
second component counts the `_parse` invocations the source performs (the
numeric branch `continue`s before any parse; the object branch parses each
entry until the first match returns). -/
def existsScan : List (Content × Int) → ExistsQuery → Bool × Nat
  | [], _ => (false, 0)
  | e :: rest, .byId q =>
    if e.2 = q then (true, 0) else existsScan rest (.byId q)
  | e :: rest, .byFields qf =>
    let parsed := jsParse e.1
    if jsTruthy parsed ∧ matchesFields parsed qf then (true, 1)
    else ((existsScan rest (.byFields qf)).1, (existsScan rest (.byFields qf)).2 + 1)

/-- `ScoreboardStorage.exists`: no query — at least one participant; numeric
query — id scan without parsing; object query — parse-and-match scan. -/
def exists_ (obj : Objective) (query : Option ExistsQuery) : Bool :=
  match query with
  | none => obj.length > 0
  | some q => (existsScan obj q).1

/-- `ScoreboardStorage.count`: no query — the participant count; otherwise
count the entries whose parse is truthy (`if (!parsed) continue`) and match. -/
def count (obj : Objective) (query : Option Query) : Nat :=
  match query with
  | none => obj.length
  | some q =>
    obj.foldr
      (fun e totalCount =>
        let parsed := jsParse e.1
        if jsTruthy parsed then
          if matchesQuery parsed q then totalCount + 1 else totalCount
        else totalCount)
      0

/-! ### Save/delete call traces (for the id-sequence analysis) -/

/-- One call in a save/delete trace on a single collection. -/
inductive Op where
  | save (d : JValue) : Op
  | deleteById (id : Int) : Op

/-- The objective state after one call. -/
def stepOp (obj : Objective) : Op → Objective
  | .save d => (save obj (some d)).1
  | .deleteById id => (deleteById obj id).1

/-- The side condition of the claim for one call at the current state: a
save serializes within the bound (so it returns instead of throwing) and a
delete targets an earlier, non-maximal id. -/
def okOp (obj : Objective) : Op → Bool
  | .save d => decide ((stringify d).length ≤ 32767)
  | .deleteById id => decide (id < maxScore obj)

/-- All side conditions hold along the trace. -/
def traceOk (obj : Objective) : List Op → Bool
  | [] => true
  | op :: rest => okOp obj op && traceOk (stepOp obj op) rest

/-- The ids the saves of a trace return, in call order. -/
def traceIds (obj : Objective) : List Op → List Int
  | [] => []
  | .save d :: rest =>
    (match save obj (some d) with
     | (obj2, .ok id) => id :: traceIds obj2 rest
     | (obj2, .error _) => traceIds obj2 rest)
  | .deleteById id :: rest => traceIds (deleteById obj id).1 rest

/-- The number of save calls in a trace. -/
def numSaves : List Op → Nat
  | [] => 0
  | .save _ :: rest => numSaves rest + 1
  | .deleteById _ :: rest => numSaves rest

/-- Invariant after `n` successful saves starting from the empty objective:
contents are distinct, scores lie in `[1, n]`, and the latest id `n` is
still present (deletes may only target smaller ids). -/
def ScoreInv (n : Nat) (obj : Objective) : Prop :=
  (obj.map (·.1)).Nodup ∧
  (∀ e ∈ obj, 1 ≤ e.2 ∧ e.2 ≤ (n : Int)) ∧
  (n = 0 → obj = []) ∧
  (0 < n → ∃ e ∈ obj, e.2 = (n : Int))

end ScoreboardStorage

namespace CacheManager

/-- The RAM mirror of one objective: a JavaScript `Map<RecordID, ParsedData>`
(insertion order, unique keys). -/
abbrev Mirror := List (Int × JValue)

/-- JavaScript `Map.get` (`none` = undefined). -/
def mapGet (m : Mirror) (k : Int) : Option JValue :=
  (m.find? (fun e => e.1 = k)).map (·.2)

/-- JavaScript `Map.set`: overwrite in place if the key exists, else append. -/
def mapSet (m : Mirror) (k : Int) (v : JValue) : Mirror :=
  if m.any (fun e => e.1 = k) then
    m.map (fun e => if e.1 = k then (k, v) else e)
  else m ++ [(k, v)]

/-- JavaScript `Map.delete`. -/
def mapDelete (m : Mirror) (k : Int) : Mirror :=
  m.eraseP (fun e => e.1 = k)

/-- The state of one collection as the cache layer sees it: the physical
objective and the RAM mirror (`none` until the first touch). -/
abbrev CacheState := Objective × Option Mirror

/-- The mirror built by `CacheManager._ensureLoaded` on first touch: one full
`getElements` and a `Map.set` per record. -/
def loadMirror (obj : Objective) : Mirror :=
  (ScoreboardStorage.getElements obj none).foldl
    (fun objectiveCache record => mapSet objectiveCache record.1 record.2) []

/-- `CacheManager._ensureLoaded`: the mirror to work with (loaded lazily). -/
def _ensureLoaded (s : CacheState) : Mirror :=
  match s.2 with
  | some m => m
  | none => loadMirror s.1

/-- `CacheManager.save`: ensure loaded, save physically, and only on success
`set` the same data object in the mirror.  (`save` succeeds only on defined
data, so the `.getD` default is never read.) -/
def save (s : CacheState) (data : JSData) : CacheState × Except JsError Int :=
  let m := _ensureLoaded s
  match ScoreboardStorage.save s.1 data with
  | (obj, .ok newId) => ((obj, some (mapSet m newId (data.getD .null))), .ok newId)
  | (obj, .error e) => ((obj, some m), .error e)

/-- `CacheManager.updateById`: ensure loaded, update physically, and only on
a `true` result `set` the new data in the mirror. -/
def updateById (s : CacheState) (id : Int) (newData : JSData) :
    CacheState × Except JsError Bool :=
  let m := _ensureLoaded s
  match ScoreboardStorage.updateById s.1 id newData with
  | (obj, .ok true) => ((obj, some (mapSet m id (newData.getD .null))), .ok true)
  | (obj, .ok false) => ((obj, some m), .ok false)
  | (obj, .error e) => ((obj, some m), .error e)

/-- `CacheManager.deleteById`: ensure loaded, delete physically, and only on
a `true` result `delete` the id from the mirror. -/
def deleteById (s : CacheState) (id : Int) : CacheState × Bool :=
  let m := _ensureLoaded s
  match ScoreboardStorage.deleteById s.1 id with
  | (obj, true) => ((obj, some (mapDelete m id)), true)
  | (obj, false) => ((obj, some m), false)

/-- `CacheManager.getById`: ensure loaded, then
`this._memory.get(objectiveName).get(id) || null` — the `||` turns every
falsy mirror value (and a missing key) into `null`. -/
def getById (s : CacheState) (id : Int) : CacheState × JValue :=
  let m := _ensureLoaded s
  ((s.1, some m),
    match mapGet m id with
    | some v => if jsTruthy v then v else .null
    | none => .null)

/-! ### Cache-layer mutation traces (for the coherence analysis) -/

/-- One mutation through the cache layer. -/
inductive COp where
  | save (d : JSData) : COp
  | updateById (id : Int) (d : JSData) : COp
  | deleteById (id : Int) : COp

/-- The cache state after one mutation (returned values discarded). -/
def stepC (s : CacheState) : COp → CacheState
  | .save d => (save s d).1
  | .updateById id d => (updateById s id d).1
  | .deleteById id => (deleteById s id).1

/-- The cache state after a whole trace of mutations. -/
def runC (s : CacheState) : List COp → CacheState
  | [] => s
  | op :: rest => runC (stepC s op) rest

/-- Serialization stays within the physical bound. -/
def stringifyOk (v : JValue) : Bool := decide ((stringify v).length ≤ 32767)

/-- Side condition of the amended claim for one mutation at the current
state: a write that physically succeeds must carry a non-null document (a
stored `null` is invisible to `getElements` yet mirrored) whose serialized
form does not already occur as the content of a *different* surviving entry
(the documented content-collision of the backing store would re-key that
entry, which the mirror update cannot see).  Failing writes and deletes need
no condition. -/
def okCOp (s : CacheState) : COp → Bool
  | .save none => true
  | .save (some v) =>
    !(stringifyOk v) ||
      (decide (v ≠ JValue.null) && !(s.1.any (fun e => e.1 = Content.json v)))
  | .updateById _ none => true
  | .updateById id (some v) =>
    !(stringifyOk v) ||
      (match s.1.find? (fun e => e.2 = id) with
       | none => true
       | some p =>
         decide (v ≠ JValue.null) &&
           !((s.1.eraseP (fun e => e.1 = p.1)).any (fun e => e.1 = Content.json v)))
  | .deleteById _ => true

/-- All side conditions hold along the trace. -/
def traceOkC (s : CacheState) : List COp → Bool
  | [] => true
  | op :: rest => okCOp s op && traceOkC (stepC s op) rest

/-- The (id, parsed document) pair the backing store holds under `id`, as
the engine reads it: the first entry carrying the score, dropped when its
content parses to null. -/
def storeLookup (obj : Objective) (id : Int) : Option JValue :=
  match obj.find? (fun e => e.2 = id) with
  | some e => if jsParse e.1 = .null then none else some (jsParse e.1)
  | none => none

/-- The coherence invariant of the claim: the mirror holds exactly the
(id, parsed document) pairs present in the backing store. -/
def Coherent (m : Mirror) (obj : Objective) : Prop :=
  ∀ id : Int, mapGet m id = storeLookup obj id

/-- Well-formedness carried through the induction: backing contents and
scores are duplicate-free (contents are the identity keys of the backing
primitive; scores are the engine-assigned unique ids), and a loaded mirror
has duplicate-free keys and is coherent. -/
def WFState (s : CacheState) : Prop :=
  (s.1.map (·.1)).Nodup ∧ (s.1.map (·.2)).Nodup ∧
    (∀ m, s.2 = some m → (m.map (·.1)).Nodup ∧ Coherent m s.1)

end CacheManager

namespace Relation

/-- One registered binding rule.  The older `Relation` variant registers the
same record without the `isReverse` flag; its operations ignore that field. -/
structure Binding where
  localField : String
  targetObjective : String
  targetField : String
  asField : String
  isReverse : Bool
deriving DecidableEq

/-- All backing objectives, for reading target collections during populate. -/
abbrev World := List (String × Objective)

/-- The objective a name denotes (a missing one behaves like no participants). -/
def worldGet (w : World) (name : String) : Objective :=
  ((w.find? (fun e => e.1 = name)).map (·.2)).getD []

/-- `targetRecords.find(record => record.data[targetField] === v)` followed by
`match ? match.data : null`. -/
def findMatch (targetRecords : List (Int × JValue)) (targetField : String) (v : JValue) :
    JValue :=
  match targetRecords.find? (fun r => jsEqOpt (jvGet r.2 targetField) v) with
  | some r => r.2
  | none => .null

/-- The optimization block of `populate`: with no `relationsToPopulate`
argument every registered binding runs; otherwise only the bindings whose
alias is among the requested names (a single supplied alias is the
singleton list). -/
def selectBindings (bindings : List Binding)
    (relationsToPopulate : Option (List String)) : List Binding :=
  match relationsToPopulate with
  | none => bindings
  | some requested => bindings.filter (fun b => requested.contains b.asField)

/-- One iteration of the binding loop of `processSingle` in the current
`Relation.js`: read the local field from the result; if absent or null,
inject the explicit default (`[]` reverse, `null` direct); otherwise fetch
the target records and inject the reverse match list, the per-element direct
matches (unmatched elements dropped), or the single direct match (or null). -/
def applyBinding (w : World) (result : List (String × JValue)) (b : Binding) :
    List (String × JValue) :=
  match objGet result b.localField with
  | none => objSet result b.asField (if b.isReverse then .arr [] else .null)
  | some .null => objSet result b.asField (if b.isReverse then .arr [] else .null)
  | some localValue =>
    let targetRecords := ScoreboardStorage.getElements (worldGet w b.targetObjective) none
    if b.isReverse then
      objSet result b.asField (.arr ((targetRecords.filter (fun r =>
        match jvGet r.2 b.targetField with
        | some (.arr targetVal) => targetVal.any (fun tv => jsStrictEq tv localValue)
        | some tv => jsStrictEq tv localValue
        | none => false)).map (·.2)))
    else
      match localValue with
      | .arr ids =>
        objSet result b.asField (.arr ((ids.map
          (fun idToFind => findMatch targetRecords b.targetField idToFind)).filter
            (fun item => item ≠ JValue.null)))
      | lv => objSet result b.asField (findMatch targetRecords b.targetField lv)

/-- `processSingle` of the current `Relation.js`: the binding loop applied to
the shallow clone `{...obj}`. -/
def processSingle (w : World) (bs : List Binding) (rawObj : JValue) : JValue :=
  .obj (bs.foldl (applyBinding w) (spreadFields rawObj))

/-- `Relation.populate` of the current `Relation.js`.  `bindings` is what the
registry holds for the source objective (`[]` when nothing was bound);
`relationsToPopulate = some rs` models a supplied alias or alias list. -/
def populate (w : World) (bindings : List Binding) (rawData : JValue)
    (relationsToPopulate : Option (List String)) : JValue :=
  if jsTruthy rawData = false then .null
  else if bindings.isEmpty then rawData
  else
    let bs := selectBindings bindings relationsToPopulate
    match rawData with
    | .arr xs => .arr (xs.map (processSingle w bs))
    | x => processSingle w bs x

/-- One iteration of the binding loop in the older `Relation` variant
(shipped next to the cache layer): a missing or null local value `continue`s
— the alias field is not written — and only direct bindings exist. -/
def applyBindingOld (w : World) (result : List (String × JValue)) (b : Binding) :
    List (String × JValue) :=
  match objGet result b.localField with
  | none => result
  | some .null => result
  | some localValue =>
    let targetRecords := ScoreboardStorage.getElements (worldGet w b.targetObjective) none
    match localValue with
    | .arr ids =>
      objSet result b.asField (.arr ((ids.map
        (fun idToFind => findMatch targetRecords b.targetField idToFind)).filter
          (fun item => item ≠ JValue.null)))
    | lv => objSet result b.asField (findMatch targetRecords b.targetField lv)

/-- `processSingle` of the older `Relation` variant. -/
def processSingleOld (w : World) (bs : List Binding) (rawObj : JValue) : JValue :=
  .obj (bs.foldl (applyBindingOld w) (spreadFields rawObj))

/-- `Relation.populate` of the older `Relation` variant. -/
def populateOld (w : World) (bindings : List Binding) (rawData : JValue)
    (relationsToPopulate : Option (List String)) : JValue :=
  if jsTruthy rawData = false then .null
  else if bindings.isEmpty then rawData
  else
    let bs := selectBindings bindings relationsToPopulate
    match rawData with
    | .arr xs => .arr (xs.map (processSingleOld w bs))
    | x => processSingleOld w bs x

end Relation

/-! ## C5: fail-fast behaviour of the mutating operations -/

/-- **C5** (amended): for `save` and `updateById` an `InvalidArgument` or
`SizeLimitExceeded` failure is raised by `_stringify` before any mutation,
so the collection state is unchanged.  (The mass `update` does not have this
property: serialization happens inside the scan loop, after the matched
participant was removed — see the counterexample.) -/
theorem ScoreboardStorage.save_updateById_fail_fast (obj : Objective) (id : Int)
    (d d2 : JSData) :
    ((ScoreboardStorage.save obj d).2.isErr = true →
      (ScoreboardStorage.save obj d).1 = obj) ∧
    ((ScoreboardStorage.updateById obj id d2).2.isErr = true →
      (ScoreboardStorage.updateById obj id d2).1 = obj) := by
  constructor
  · intro h
    unfold ScoreboardStorage.save at h ⊢
    cases hs : ScoreboardStorage._stringify d with
    | error e => rfl
    | ok v =>
      rw [hs] at h
      simp [Except.isErr] at h
  · intro h
    unfold ScoreboardStorage.updateById at h ⊢
    cases hs : ScoreboardStorage._stringify d2 with
    | error e => rfl
    | ok v =>
      rw [hs] at h
      cases hf : obj.find? (fun e => e.2 = id) with
      | some p => simp [hf, Except.isErr] at h
      | none => simp [hf, Except.isErr] at h

/-- Witness for the amended C5 at concrete failing inputs (`undefined` data). -/
theorem ScoreboardStorage.save_updateById_fail_fast_witness :
    (ScoreboardStorage.save [] (none : JSData)).1 = [] ∧
    (ScoreboardStorage.updateById [(.json (.num 5), 1)] 1 (none : JSData)).1 =
      [(.json (.num 5), 1)] :=
  ⟨(ScoreboardStorage.save_updateById_fail_fast [] 1 none none).1 (by decide),
   (ScoreboardStorage.save_updateById_fail_fast [(.json (.num 5), 1)] 1 none none).2 (by decide)⟩

/-- Counterexample to C5 as stated: a mass `update` whose transform yields an
unserializable (`undefined`) document for the second matched record raises
the error *after* updating the first record and removing the second — the
collection is left changed, a partial effect. -/
theorem ScoreboardStorage.mass_update_partial_effect :
    (ScoreboardStorage.update
      [(.json (.obj [("k", .num 1)]), 1), (.json (.obj [("k", .num 2)]), 2)]
      (.fn (fun _ => true))
      (.fn (fun old =>
        if old = .obj [("k", .num 1)] then some (.obj [("k", .num 9)]) else none))).2.isErr
      = true ∧
    (ScoreboardStorage.update
      [(.json (.obj [("k", .num 1)]), 1), (.json (.obj [("k", .num 2)]), 2)]
      (.fn (fun _ => true))
      (.fn (fun old =>
        if old = .obj [("k", .num 1)] then some (.obj [("k", .num 9)]) else none))).1 =
      [(.json (.obj [("k", .num 9)]), 1)] ∧
    [(Content.json (.obj [("k", .num 9)]), (1 : Int))] ≠
      [(.json (.obj [("k", .num 1)]), 1), (.json (.obj [("k", .num 2)]), 2)] := by
  refine ⟨by decide, by decide, by decide⟩

/-! ## C6 / C7: exists, count and getElements on states with foreign entries -/

namespace ScoreboardStorage

theorem existsScan_byId_no_parse (obj : Objective) (n : Int) :
    (existsScan obj (.byId n)).2 = 0 := by
  induction obj with
  | nil => rfl
  | cons e rest ih =>
    rw [existsScan]
    split
    · rfl
    · exact ih

theorem existsScan_byId_eq_any (obj : Objective) (n : Int) :
    (existsScan obj (.byId n)).1 = obj.any (fun e => e.2 = n) := by
  induction obj with
  | nil => rfl
  | cons e rest ih =>
    rw [existsScan, List.any_cons]
    split
    · rename_i h
      simp [h]
    · rename_i h
      simp only [ih]
      rw [show (decide (e.2 = n)) = false by simpa using h]
      rw [Bool.false_or]

theorem getElements_none_cons (e : Content × Int) (rest : Objective) :
    getElements (e :: rest) none =
      if jsParse e.1 ≠ .null then (e.2, jsParse e.1) :: getElements rest none
      else getElements rest none := by
  simp only [getElements, List.foldr_cons]
  split <;> rfl

end ScoreboardStorage

/-- **C6** (amended): on a backing state in which every stored entry parses
to a non-null document, `exists` with a numeric query is true exactly when
`getElementById` at that id is non-null; and the numeric fast path performs
zero `_parse` invocations (unconditionally, by the instrumented scan).  On
states with unparsable entries the equivalence fails — see the
counterexample. -/
theorem ScoreboardStorage.exists_numeric_characterization (obj : Objective) (n : Int)
    (h : ∀ e ∈ obj, jsParse e.1 ≠ .null) :
    (ScoreboardStorage.exists_ obj (some (.byId n)) = true ↔
      ScoreboardStorage.getElementById obj n ≠ .null) ∧
    (ScoreboardStorage.existsScan obj (.byId n)).2 = 0 := by
  refine ⟨?_, ScoreboardStorage.existsScan_byId_no_parse obj n⟩
  show (ScoreboardStorage.existsScan obj (.byId n)).1 = true ↔ _
  rw [ScoreboardStorage.existsScan_byId_eq_any]
  constructor
  · intro hany
    rw [List.any_eq_true] at hany
    obtain ⟨e, hmem, he⟩ := hany
    unfold ScoreboardStorage.getElementById
    cases hf : obj.find? (fun x => x.2 = n) with
    | some p => exact h p (List.mem_of_find?_eq_some hf)
    | none =>
      rw [List.find?_eq_none] at hf
      exact absurd he (by simpa using hf e hmem)
  · intro hne
    unfold ScoreboardStorage.getElementById at hne
    cases hf : obj.find? (fun x => x.2 = n) with
    | some p =>
      rw [List.any_eq_true]
      exact ⟨p, List.mem_of_find?_eq_some hf, by simpa using List.find?_some hf⟩
    | none =>
      rw [hf] at hne
      exact absurd rfl hne

/-- Witness for the amended C6 at a concrete all-parsable store. -/
theorem ScoreboardStorage.exists_numeric_characterization_witness :
    (∀ e ∈ [((Content.json (.obj [("a", .num 1)]), (1 : Int)))], jsParse e.1 ≠ .null) ∧
    (ScoreboardStorage.exists_ [(.json (.obj [("a", .num 1)]), 1)] (some (.byId 1)) = true ↔
      ScoreboardStorage.getElementById [(.json (.obj [("a", .num 1)]), 1)] 1 ≠ .null) :=
  ⟨by decide,
    (ScoreboardStorage.exists_numeric_characterization
      [(.json (.obj [("a", .num 1)]), 1)] 1 (by decide)).1⟩

/-- Counterexample to C6 as stated: in a state with a foreign (unparsable)
entry at id 5 — a state the claim explicitly includes — `exists(c, 5)` is
true while `getElementById(c, 5)` is null. -/
theorem ScoreboardStorage.exists_getElementById_disagree :
    ScoreboardStorage.exists_ [(.foreign "hello", 5)] (some (.byId 5)) = true ∧
    ScoreboardStorage.getElementById [(.foreign "hello", 5)] 5 = .null :=
  ⟨by decide, by decide⟩

/-- **C7** (amended): on a backing state in which every stored entry parses
to a non-null document, `count` with no query equals the length of
`getElements` with no query.  (In general `count` counts every participant
while `getElements` drops entries parsing to null — see the
counterexample.) -/
theorem ScoreboardStorage.count_eq_getElements_length (obj : Objective)
    (h : ∀ e ∈ obj, jsParse e.1 ≠ .null) :
    ScoreboardStorage.count obj none = (ScoreboardStorage.getElements obj none).length := by
  induction obj with
  | nil => rfl
  | cons e rest ih =>
    have hh : jsParse e.1 ≠ .null := h e (List.mem_cons_self _ _)
    have hrest := ih (fun x hx => h x (List.mem_cons_of_mem _ hx))
    show rest.length + 1 = _
    rw [ScoreboardStorage.getElements_none_cons, if_pos hh, List.length_cons, ← hrest]
    rfl

/-- Witness for the amended C7 at a concrete all-parsable store. -/
theorem ScoreboardStorage.count_eq_getElements_length_witness :
    (∀ e ∈ [((Content.json (.num 7), (1 : Int))), ((Content.json (.str "x"), (2 : Int)))],
      jsParse e.1 ≠ .null) ∧
    ScoreboardStorage.count [(.json (.num 7), 1), (.json (.str "x"), 2)] none =
      (ScoreboardStorage.getElements [(.json (.num 7), 1), (.json (.str "x"), 2)] none).length :=
  ⟨by decide,
    ScoreboardStorage.count_eq_getElements_length
      [(.json (.num 7), 1), (.json (.str "x"), 2)] (by decide)⟩

/-- Counterexample to C7 as stated: with one foreign (unparsable) entry —
a state the claim explicitly includes — `count` is 1 while `getElements`
returns the empty list. -/
theorem ScoreboardStorage.count_getElements_disagree :
    ScoreboardStorage.count [(.foreign "hello", 1)] none = 1 ∧
    (ScoreboardStorage.getElements [(.foreign "hello", 1)] none).length = 0 :=
  ⟨by decide, by decide⟩

/-! ## Generic list lemmas -/

theorem mem_eraseP_of_pred_false {α : Type} {p : α → Bool} {a : α} {l : List α}
    (ha : a ∈ l) (hp : p a = false) : a ∈ l.eraseP p := by
  induction l with
  | nil => cases ha
  | cons x xs ih =>
    rcases List.mem_cons.mp ha with rfl | hmem
    · rw [List.eraseP_cons, hp]
      exact List.mem_cons_self _ _
    · rw [List.eraseP_cons]
      cases hqx : p x
      · exact List.mem_cons_of_mem _ (ih hmem)
      · simpa using hmem

theorem find?_eraseP_of_imp {α : Type} {p q : α → Bool} {l : List α}
    (h : ∀ a ∈ l, q a = true → p a = false) :
    (l.eraseP q).find? p = l.find? p := by
  induction l with
  | nil => rfl
  | cons x xs ih =>
    rw [List.eraseP_cons]
    cases hqx : q x with
    | true =>
      have hpx := h x (List.mem_cons_self _ _) hqx
      simp only [cond_true]
      rw [List.find?_cons_of_neg _ (by simp [hpx])]
    | false =>
      simp only [cond_false]
      cases hpx : p x
      · rw [List.find?_cons_of_neg _ (by simp [hpx]),
          List.find?_cons_of_neg _ (by simp [hpx]),
          ih (fun a ha => h a (List.mem_cons_of_mem _ ha))]
      · rw [List.find?_cons_of_pos _ hpx, List.find?_cons_of_pos _ hpx]

theorem eraseP_key_not_mem {α β : Type} [DecidableEq α] {l : List (α × β)} {k : α}
    (hnodup : (l.map (·.1)).Nodup) :
    ∀ e ∈ l.eraseP (fun x => x.1 = k), e.1 ≠ k := by
  induction l with
  | nil => simp
  | cons x xs ih =>
    rw [List.map_cons, List.nodup_cons] at hnodup
    rw [List.eraseP_cons]
    by_cases hc : x.1 = k
    · rw [show (decide (x.1 = k)) = true by simpa using hc]
      simp only [cond_true]
      intro e he hec
      exact hnodup.1 (List.mem_map.mpr ⟨e, he, by rw [hec, hc]⟩)
    · rw [show (decide (x.1 = k)) = false by simpa using hc]
      simp only [cond_false]
      intro e he
      rcases List.mem_cons.mp he with rfl | he'
      · exact hc
      · exact ih hnodup.2 e he'

theorem keys_upsert_nodup {α β : Type} [DecidableEq α] (l : List (α × β)) (k : α) (v : β)
    (h : (l.map (·.1)).Nodup) :
    (((if l.any (fun e => e.1 = k) then l.map (fun e => if e.1 = k then (k, v) else e)
      else l ++ [(k, v)])).map (·.1)).Nodup := by
  split
  · have heq : (l.map (fun e => if e.1 = k then (k, v) else e)).map (·.1) = l.map (·.1) := by
      rw [List.map_map]
      refine List.map_congr_left fun e _ => ?_
      by_cases hc : e.1 = k
      · simp [hc]
      · simp [hc]
    rw [heq]
    exact h
  · rename_i hany
    rw [Bool.not_eq_true, List.any_eq_false] at hany
    rw [List.map_append, List.nodup_append]
    refine ⟨h, List.nodup_singleton _, ?_⟩
    intro a ha hb
    simp only [List.map_cons, List.map_nil, List.mem_singleton] at hb
    rw [List.mem_map] at ha
    obtain ⟨e, hmem, he⟩ := ha
    exact hany e hmem (by simp [he, hb])

/-! ## Generic lemmas about key-based upsert (`objSet`, `mapSet`) -/

section Upsert

variable {α β : Type} [DecidableEq α]

theorem find?_fst_map_replace {l : List (α × β)} {k : α} {v : β}
    (hex : ∃ e ∈ l, e.1 = k) :
    (l.map (fun e => if e.1 = k then (k, v) else e)).find? (fun e => e.1 = k) =
      some (k, v) := by
  induction l with
  | nil => simp at hex
  | cons x xs ih =>
    rw [List.map_cons]
    by_cases hc : x.1 = k
    · rw [if_pos hc, List.find?_cons_of_pos _ (by simp)]
    · rw [if_neg hc, List.find?_cons_of_neg _ (by simpa using hc)]
      refine ih ?_
      obtain ⟨e, hmem, he⟩ := hex
      rcases List.mem_cons.mp hmem with rfl | hmem'
      · exact absurd he hc
      · exact ⟨e, hmem', he⟩

theorem find?_fst_map_replace_ne {l : List (α × β)} {k k2 : α} {v : β} (hne : k2 ≠ k) :
    (l.map (fun e => if e.1 = k then (k, v) else e)).find? (fun e => e.1 = k2) =
      l.find? (fun e => e.1 = k2) := by
  induction l with
  | nil => rfl
  | cons x xs ih =>
    rw [List.map_cons]
    by_cases hc : x.1 = k
    · rw [if_pos hc]
      rw [List.find?_cons_of_neg _ (by simp only [decide_eq_true_eq]; exact fun h => hne h.symm)]
      rw [List.find?_cons_of_neg _ (by simp only [decide_eq_true_eq]; rw [hc]; exact fun h => hne h.symm)]
      exact ih
    · rw [if_neg hc]
      by_cases hp : x.1 = k2
      · rw [List.find?_cons_of_pos _ (by simpa using hp),
          List.find?_cons_of_pos _ (by simpa using hp)]
      · rw [List.find?_cons_of_neg _ (by simpa using hp),
          List.find?_cons_of_neg _ (by simpa using hp)]
        exact ih

theorem find?_fst_upsert (l : List (α × β)) (k : α) (v : β) :
    ((if l.any (fun e => e.1 = k) then l.map (fun e => if e.1 = k then (k, v) else e)
      else l ++ [(k, v)]).find? (fun e => e.1 = k)) = some (k, v) := by
  split
  · rename_i hany
    rw [List.any_eq_true] at hany
    obtain ⟨e, hmem, he⟩ := hany
    exact find?_fst_map_replace ⟨e, hmem, by simpa using he⟩
  · rw [List.find?_append, List.find?_eq_none.mpr, Option.none_or]
    · rw [List.find?_cons_of_pos _ (by simp)]
    · rename_i hany
      rw [Bool.not_eq_true, List.any_eq_false] at hany
      exact hany

theorem find?_fst_upsert_ne (l : List (α × β)) {k k2 : α} (v : β) (hne : k2 ≠ k) :
    ((if l.any (fun e => e.1 = k) then l.map (fun e => if e.1 = k then (k, v) else e)
      else l ++ [(k, v)]).find? (fun e => e.1 = k2)) = l.find? (fun e => e.1 = k2) := by
  split
  · exact find?_fst_map_replace_ne hne
  · rw [List.find?_append]
    rw [List.find?_cons_of_neg _
      (by simp only [decide_eq_true_eq]; exact fun h => hne h.symm)]
    simp

end Upsert

theorem objGet_objSet_self (fs : List (String × JValue)) (k : String) (v : JValue) :
    objGet (objSet fs k v) k = some v := by
  unfold objGet objSet
  rw [find?_fst_upsert]
  rfl

theorem objGet_objSet_ne (fs : List (String × JValue)) {k k2 : String} (v : JValue)
    (hne : k2 ≠ k) : objGet (objSet fs k v) k2 = objGet fs k2 := by
  unfold objGet objSet
  rw [find?_fst_upsert_ne _ _ hne]

theorem CacheManager.mapGet_mapSet_self (m : CacheManager.Mirror) (k : Int) (v : JValue) :
    CacheManager.mapGet (CacheManager.mapSet m k v) k = some v := by
  unfold CacheManager.mapGet CacheManager.mapSet
  rw [find?_fst_upsert]
  rfl

theorem CacheManager.mapGet_mapSet_ne (m : CacheManager.Mirror) {k k2 : Int} (v : JValue)
    (hne : k2 ≠ k) :
    CacheManager.mapGet (CacheManager.mapSet m k v) k2 = CacheManager.mapGet m k2 := by
  unfold CacheManager.mapGet CacheManager.mapSet
  rw [find?_fst_upsert_ne _ _ hne]

/-! ## Lemmas about `maxScore`, `setScore` and `save` -/

namespace ScoreboardStorage

theorem le_foldl_maxStep_init (l : List (Content × Int)) (init : Int) :
    init ≤ l.foldl (fun m e => if e.2 > m then e.2 else m) init := by
  induction l generalizing init with
  | nil => exact le_refl _
  | cons x xs ih =>
    refine le_trans ?_ (ih (if x.2 > init then x.2 else init))
    split <;> omega

theorem le_foldl_maxStep_mem {l : List (Content × Int)} {e : Content × Int}
    (he : e ∈ l) (init : Int) :
    e.2 ≤ l.foldl (fun m e => if e.2 > m then e.2 else m) init := by
  induction l generalizing init with
  | nil => cases he
  | cons x xs ih =>
    rcases List.mem_cons.mp he with rfl | hmem
    · refine le_trans ?_ (le_foldl_maxStep_init xs (if e.2 > init then e.2 else init))
      split <;> omega
    · exact ih hmem _

theorem foldl_maxStep_le {l : List (Content × Int)} {init b : Int}
    (hinit : init ≤ b) (h : ∀ e ∈ l, e.2 ≤ b) :
    l.foldl (fun m e => if e.2 > m then e.2 else m) init ≤ b := by
  induction l generalizing init with
  | nil => exact hinit
  | cons x xs ih =>
    refine ih ?_ (fun e he => h e (List.mem_cons_of_mem _ he))
    have := h x (List.mem_cons_self _ _)
    dsimp only
    split <;> omega

theorem le_maxScore {obj : Objective} {e : Content × Int} (he : e ∈ obj) :
    e.2 ≤ maxScore obj :=
  le_foldl_maxStep_mem he 0

theorem maxScore_nonneg (obj : Objective) : 0 ≤ maxScore obj :=
  le_foldl_maxStep_init obj 0

theorem maxScore_le {obj : Objective} {b : Int} (hb : 0 ≤ b)
    (h : ∀ e ∈ obj, e.2 ≤ b) : maxScore obj ≤ b :=
  foldl_maxStep_le hb h

theorem setScore_of_fresh {obj : Objective} {c : Content} {id : Int}
    (h : ∀ e ∈ obj, e.1 ≠ c) : setScore obj c id = obj ++ [(c, id)] := by
  unfold setScore
  rw [if_neg]
  simp only [List.any_eq_true, decide_eq_true_eq, not_exists, not_and]
  intro e he
  exact h e he

theorem mem_setScore_self (obj : Objective) (c : Content) (id : Int) :
    (c, id) ∈ setScore obj c id := by
  unfold setScore
  split
  · rename_i hany
    rw [List.any_eq_true] at hany
    obtain ⟨e, hmem, he⟩ := hany
    rw [decide_eq_true_eq] at he
    exact List.mem_map.mpr ⟨e, hmem, by rw [if_pos he]⟩
  · simp

theorem mem_setScore {obj : Objective} {c : Content} {id : Int} {x : Content × Int}
    (h : x ∈ setScore obj c id) : x = (c, id) ∨ x ∈ obj := by
  unfold setScore at h
  split at h
  · rw [List.mem_map] at h
    obtain ⟨e, hmem, heq⟩ := h
    by_cases hc : e.1 = c
    · rw [if_pos hc] at heq
      exact Or.inl heq.symm
    · rw [if_neg hc] at heq
      exact Or.inr (heq ▸ hmem)
  · rcases List.mem_append.mp h with hmem | hone
    · exact Or.inr hmem
    · exact Or.inl (by simpa using hone)

theorem find?_score_map_replace {obj : Objective} {c : Content} {id : Int}
    (hex : ∃ e ∈ obj, e.1 = c) (h : ∀ e ∈ obj, e.2 ≠ id) :
    (obj.map (fun e => if e.1 = c then (c, id) else e)).find?
        (fun e => e.2 = id) = some (c, id) := by
  induction obj with
  | nil => simp at hex
  | cons x xs ih =>
    rw [List.map_cons]
    by_cases hc : x.1 = c
    · rw [if_pos hc]
      rw [List.find?_cons_of_pos _ (by simp)]
    · rw [if_neg hc]
      rw [List.find?_cons_of_neg _ (by simp [h x (List.mem_cons_self _ _)])]
      refine ih ?_ (fun e he => h e (List.mem_cons_of_mem _ he))
      obtain ⟨e, hmem, he⟩ := hex
      rcases List.mem_cons.mp hmem with rfl | hmem'
      · exact absurd he hc
      · exact ⟨e, hmem', he⟩

theorem find?_score_setScore {obj : Objective} {c : Content} {id : Int}
    (h : ∀ e ∈ obj, e.2 ≠ id) :
    (setScore obj c id).find? (fun e => e.2 = id) = some (c, id) := by
  unfold setScore
  split
  · rename_i hany
    rw [List.any_eq_true] at hany
    obtain ⟨e, hmem, he⟩ := hany
    rw [decide_eq_true_eq] at he
    exact find?_score_map_replace ⟨e, hmem, he⟩ h
  · rw [List.find?_append]
    rw [List.find?_eq_none.mpr (by simpa using h)]
    simp

theorem getElementById_setScore_self {obj : Objective} {c : Content} {id : Int}
    (h : ∀ e ∈ obj, e.2 ≠ id) :
    getElementById (setScore obj c id) id = jsParse c := by
  unfold getElementById
  rw [find?_score_setScore h]

theorem _stringify_ok {d : JValue} (h : (stringify d).length ≤ 32767) :
    _stringify (some d) = .ok d := by
  have hn : ¬ (stringify d).length > 32767 := by omega
  simp [_stringify, hn]

theorem save_ok {obj : Objective} {d : JValue} (h : (stringify d).length ≤ 32767) :
    save obj (some d) =
      (setScore obj (.json d) (maxScore obj + 1), .ok (maxScore obj + 1)) := by
  unfold save
  rw [_stringify_ok h]
  rfl

theorem scores_ne_next {obj : Objective} : ∀ e ∈ obj, e.2 ≠ maxScore obj + 1 := by
  intro e he
  have := le_maxScore he
  omega

end ScoreboardStorage

/-! ## C1: save / getElementById round trip -/

/-- **C1**: for every backing state and every document that serializes within
the 32767-character bound, `save` returns `_getNextId` of the prior state and
`getElementById` at that id immediately returns a document equal to the one
saved. -/
theorem ScoreboardStorage.save_getElementById_roundtrip (obj : Objective) (d : JValue)
    (h : (stringify d).length ≤ 32767) :
    (ScoreboardStorage.save obj (some d)).2 = .ok (ScoreboardStorage._getNextId obj) ∧
    ScoreboardStorage.getElementById (ScoreboardStorage.save obj (some d)).1
      (ScoreboardStorage._getNextId obj) = d := by
  rw [ScoreboardStorage.save_ok h]
  refine ⟨rfl, ?_⟩
  show ScoreboardStorage.getElementById _ (ScoreboardStorage.maxScore obj + 1) = d
  rw [ScoreboardStorage.getElementById_setScore_self ScoreboardStorage.scores_ne_next]
  rfl

/-- Witness for C1 at a concrete store and document. -/
theorem ScoreboardStorage.save_getElementById_roundtrip_witness :
    (stringify (.obj [("a", .num 1)])).length ≤ 32767 ∧
    ScoreboardStorage.getElementById
      (ScoreboardStorage.save [(.foreign "junk", 4)] (some (.obj [("a", .num 1)]))).1
      (ScoreboardStorage._getNextId [(.foreign "junk", 4)]) = .obj [("a", .num 1)] :=
  ⟨by decide,
    (ScoreboardStorage.save_getElementById_roundtrip [(.foreign "junk", 4)] _ (by decide)).2⟩

/-! ## Further lemmas on `setScore`, `getElementById` and content counts -/

namespace ScoreboardStorage

theorem getElementById_none {obj : Objective} {id : Int}
    (h : ∀ e ∈ obj, e.2 ≠ id) : getElementById obj id = .null := by
  unfold getElementById
  rw [List.find?_eq_none.mpr (by simpa using h)]

theorem maxScore_setScore_top (obj : Objective) (c : Content) :
    maxScore (setScore obj c (maxScore obj + 1)) = maxScore obj + 1 := by
  have h1 : maxScore obj + 1 ≤ maxScore (setScore obj c (maxScore obj + 1)) :=
    le_maxScore (mem_setScore_self obj c _)
  have h2 : maxScore (setScore obj c (maxScore obj + 1)) ≤ maxScore obj + 1 := by
    refine maxScore_le (by have := maxScore_nonneg obj; omega) (fun e he => ?_)
    rcases mem_setScore he with rfl | hmem
    · exact le_refl _
    · have := le_maxScore hmem
      omega
  omega

theorem mem_setScore_strong {obj : Objective} {c : Content} {id : Int} {x : Content × Int}
    (h : x ∈ setScore obj c id) : x = (c, id) ∨ (x ∈ obj ∧ x.1 ≠ c) := by
  unfold setScore at h
  split at h
  · rw [List.mem_map] at h
    obtain ⟨e, hmem, heq⟩ := h
    by_cases hc : e.1 = c
    · rw [if_pos hc] at heq
      exact Or.inl heq.symm
    · rw [if_neg hc] at heq
      exact Or.inr ⟨heq ▸ hmem, heq ▸ hc⟩
  · rename_i hany
    rw [Bool.not_eq_true, List.any_eq_false] at hany
    rcases List.mem_append.mp h with hmem | hone
    · exact Or.inr ⟨hmem, by simpa using hany x hmem⟩
    · exact Or.inl (by simpa using hone)

theorem countP_content_of_nodup {obj : Objective} {c : Content}
    (hnodup : (obj.map (·.1)).Nodup) (hex : ∃ e ∈ obj, e.1 = c) :
    obj.countP (fun e => e.1 = c) = 1 := by
  induction obj with
  | nil => simp at hex
  | cons x xs ih =>
    rw [List.map_cons, List.nodup_cons] at hnodup
    by_cases hc : x.1 = c
    · rw [List.countP_cons_of_pos _ _ (by simpa using hc)]
      rw [List.countP_eq_zero.mpr]
      · intro e he
        simp only [decide_eq_true_eq]
        intro hec
        exact hnodup.1 (List.mem_map.mpr ⟨e, he, by rw [hec, hc]⟩)
    · rw [List.countP_cons_of_neg _ _ (by simpa using hc)]
      refine ih hnodup.2 ?_
      obtain ⟨e, hmem, he⟩ := hex
      rcases List.mem_cons.mp hmem with rfl | hmem'
      · exact absurd he hc
      · exact ⟨e, hmem', he⟩

theorem countP_content_setScore {obj : Objective} {c : Content} {id : Int}
    (hnodup : (obj.map (·.1)).Nodup) :
    (setScore obj c id).countP (fun e => e.1 = c) = 1 := by
  unfold setScore
  split
  · rename_i hany
    rw [List.countP_map]
    rw [List.countP_congr (q := fun e => decide (e.1 = c))]
    · rw [List.any_eq_true] at hany
      obtain ⟨e, hmem, he⟩ := hany
      exact countP_content_of_nodup hnodup ⟨e, hmem, by simpa using he⟩
    · intro e _
      by_cases hc : e.1 = c
      · simp [hc]
      · simp [hc]
  · rw [List.countP_append]
    rw [List.countP_eq_zero.mpr]
    · simp
    · rename_i hany
      rw [Bool.not_eq_true, List.any_eq_false] at hany
      exact hany

end ScoreboardStorage

/-! ## C2: ids of interleaved save/delete traces -/

namespace ScoreboardStorage

theorem ScoreInv.maxScore_eq {n : Nat} {obj : Objective} (h : ScoreInv n obj) :
    maxScore obj = (n : Int) := by
  obtain ⟨-, hbound, hzero, hpos⟩ := h
  rcases Nat.eq_zero_or_pos n with rfl | hn
  · rw [hzero rfl]
    rfl
  · obtain ⟨e, hmem, he⟩ := hpos hn
    have h1 := le_maxScore hmem
    have h2 := maxScore_le (b := (n : Int)) (by positivity) (fun e he => (hbound e he).2)
    omega

theorem contents_setScore_replace {obj : Objective} {c : Content} {id : Int}
    (h : obj.any (fun e => e.1 = c) = true) :
    (setScore obj c id).map (·.1) = obj.map (·.1) := by
  unfold setScore
  rw [if_pos h, List.map_map]
  refine List.map_congr_left (fun e _ => ?_)
  by_cases hc : e.1 = c
  · simp [hc]
  · simp [hc]

theorem contents_nodup_setScore {obj : Objective} {c : Content} {id : Int}
    (h : (obj.map (·.1)).Nodup) : ((setScore obj c id).map (·.1)).Nodup := by
  cases hany : obj.any (fun e => e.1 = c)
  · rw [show setScore obj c id = obj ++ [(c, id)] from ?_]
    · rw [List.map_append]
      rw [List.nodup_append]
      refine ⟨h, List.nodup_singleton _, ?_⟩
      intro a ha hb
      rw [List.mem_map] at ha
      obtain ⟨e, hmem, he⟩ := ha
      rw [List.any_eq_false] at hany
      simp only [List.map_cons, List.map_nil, List.mem_singleton] at hb
      exact hany e hmem (by simp [he, hb])
    · refine setScore_of_fresh (fun e he hc => ?_)
      rw [List.any_eq_false] at hany
      exact hany e he (by simp [hc])
  · rw [contents_setScore_replace hany]
    exact h

theorem ScoreInv.step_save {n : Nat} {obj : Objective} (h : ScoreInv n obj)
    (c : Content) : ScoreInv (n + 1) (setScore obj c (maxScore obj + 1)) := by
  obtain ⟨hnodup, hbound, hzero, hpos⟩ := h
  have hmax : maxScore obj = (n : Int) := ScoreInv.maxScore_eq ⟨hnodup, hbound, hzero, hpos⟩
  rw [hmax]
  refine ⟨contents_nodup_setScore hnodup, ?_, by omega, ?_⟩
  · intro e he
    rcases mem_setScore he with rfl | hmem
    · simp only
      push_cast
      omega
    · have := hbound e hmem
      push_cast
      omega
  · intro _
    refine ⟨(c, (n : Int) + 1), mem_setScore_self obj c ((n : Int) + 1), ?_⟩
    push_cast
    ring

theorem ScoreInv.step_delete {n : Nat} {obj : Objective} (h : ScoreInv n obj)
    {id : Int} (hid : id < maxScore obj) : ScoreInv n (deleteById obj id).1 := by
  obtain ⟨hnodup, hbound, hzero, hpos⟩ := h
  have hmax := ScoreInv.maxScore_eq ⟨hnodup, hbound, hzero, hpos⟩
  unfold deleteById
  cases hfind : obj.find? (fun e => e.2 = id) with
  | none => exact ⟨hnodup, hbound, hzero, hpos⟩
  | some p =>
    simp only
    unfold removeParticipant
    have hsub : (obj.eraseP (fun e => e.1 = p.1)).Sublist obj := List.eraseP_sublist _
    refine ⟨(hsub.map _).nodup hnodup, fun e he => hbound e (hsub.subset he), ?_, ?_⟩
    · intro h0
      rw [hzero h0] at hfind
      simp at hfind
    · intro hn
      obtain ⟨e, hmem, he⟩ := hpos hn
      have hpmem := List.mem_of_find?_eq_some hfind
      have hpid : p.2 = id := by simpa using List.find?_some hfind
      have hne : e.1 ≠ p.1 := by
        intro hcontent
        have heq : e = p := List.inj_on_of_nodup_map hnodup hmem hpmem hcontent
        rw [heq] at he
        omega
      exact ⟨e, mem_eraseP_of_pred_false hmem (by simpa using hne), he⟩

theorem traceIds_eq {ops : List Op} {obj : Objective} {n : Nat}
    (hinv : ScoreInv n obj) (hok : traceOk obj ops = true) :
    traceIds obj ops =
      (List.range (numSaves ops)).map (fun i => ((n + i : Nat) : Int) + 1) := by
  induction ops generalizing obj n with
  | nil => rfl
  | cons op rest ih =>
    rw [traceOk, Bool.and_eq_true] at hok
    obtain ⟨hop, hrest⟩ := hok
    cases op with
    | save d =>
      rw [okOp, decide_eq_true_eq] at hop
      have hsave := @save_ok obj d hop
      have hstep : stepOp obj (.save d) = setScore obj (.json d) (maxScore obj + 1) := by
        rw [stepOp, hsave]
      rw [hstep] at hrest
      rw [traceIds, hsave]
      simp only
      rw [ih (hinv.step_save _) hrest]
      rw [numSaves, List.range_succ_eq_map, List.map_cons, List.map_map]
      congr 1
      · rw [hinv.maxScore_eq]
        push_cast
        ring
      · refine List.map_congr_left fun i _ => ?_
        simp only [Function.comp_apply, Nat.succ_eq_add_one]
        push_cast
        ring
    | deleteById id =>
      rw [okOp, decide_eq_true_eq] at hop
      rw [stepOp] at hrest
      rw [traceIds, numSaves]
      exact ih (hinv.step_delete hop) hrest

end ScoreboardStorage

/-- **C2**: starting from an empty collection, for every trace of save and
delete calls in which every save serializes within the bound and every
delete targets a non-maximal id, the ids returned by the saves are exactly
`[1, 2, ..., numSaves]` — a strictly increasing sequence starting at 1, each
id being `_getNextId` = max(existing ids, default 0) + 1 of the state it was
issued in. -/
theorem ScoreboardStorage.save_ids_strictly_increasing (ops : List ScoreboardStorage.Op)
    (h : ScoreboardStorage.traceOk ([] : Objective) ops = true) :
    ScoreboardStorage.traceIds [] ops =
      (List.range (ScoreboardStorage.numSaves ops)).map (fun (i : Nat) => (i : Int) + 1) := by
  have h0 : ScoreboardStorage.ScoreInv 0 ([] : Objective) :=
    ⟨List.nodup_nil, by simp, fun _ => rfl, by omega⟩
  rw [ScoreboardStorage.traceIds_eq h0 h]
  exact List.map_congr_left fun i _ => by push_cast; ring

/-- **C3**: saving twice, in the same collection, documents with the same
serialized form (in the embedding the backing key `Content.json d` stands
for the serialized string, so byte-identical serialization is equal
content), yields a single entry with that content — the second save re-keys
the existing entry to the most recently assigned id.  The new id retrieves
the document, the first id retrieves nothing. -/
theorem ScoreboardStorage.duplicate_content_single_entry (obj : Objective) (d : JValue)
    (hd : (stringify d).length ≤ 32767) (hnodup : (obj.map (·.1)).Nodup) :
    (ScoreboardStorage.save obj (some d)).2 = .ok (ScoreboardStorage.maxScore obj + 1) ∧
    (ScoreboardStorage.save (ScoreboardStorage.save obj (some d)).1 (some d)).2 =
      .ok (ScoreboardStorage.maxScore obj + 2) ∧
    ((ScoreboardStorage.save (ScoreboardStorage.save obj (some d)).1 (some d)).1.countP
      (fun e => e.1 = Content.json d)) = 1 ∧
    ScoreboardStorage.getElementById
      (ScoreboardStorage.save (ScoreboardStorage.save obj (some d)).1 (some d)).1
      (ScoreboardStorage.maxScore obj + 2) = d ∧
    ScoreboardStorage.getElementById
      (ScoreboardStorage.save (ScoreboardStorage.save obj (some d)).1 (some d)).1
      (ScoreboardStorage.maxScore obj + 1) = .null := by
  have hsave1 := @ScoreboardStorage.save_ok obj d hd
  have hmax1 := ScoreboardStorage.maxScore_setScore_top obj (.json d)
  have hsave2 := @ScoreboardStorage.save_ok
    (setScore obj (.json d) (ScoreboardStorage.maxScore obj + 1)) d hd
  have h12 : ScoreboardStorage.maxScore
      (setScore obj (.json d) (ScoreboardStorage.maxScore obj + 1)) + 1 =
      ScoreboardStorage.maxScore obj + 2 := by
    rw [hmax1]
    ring
  have hobj1 : (ScoreboardStorage.save obj (some d)).1 =
      setScore obj (.json d) (ScoreboardStorage.maxScore obj + 1) := by
    rw [hsave1]
  have hobj2 : (ScoreboardStorage.save (ScoreboardStorage.save obj (some d)).1 (some d)).1 =
      setScore (setScore obj (.json d) (ScoreboardStorage.maxScore obj + 1)) (.json d)
        (ScoreboardStorage.maxScore obj + 2) := by
    rw [hobj1, hsave2, h12]
  have hnodup1 : ((setScore obj (.json d)
      (ScoreboardStorage.maxScore obj + 1)).map (·.1)).Nodup :=
    ScoreboardStorage.contents_nodup_setScore hnodup
  have hscores1 : ∀ e ∈ setScore obj (.json d) (ScoreboardStorage.maxScore obj + 1),
      e.2 ≠ ScoreboardStorage.maxScore obj + 2 := by
    intro e he
    have := ScoreboardStorage.le_maxScore he
    rw [hmax1] at this
    omega
  refine ⟨by rw [hsave1], ?_, ?_, ?_, ?_⟩
  · rw [hobj1, hsave2]
    rw [h12]
  · rw [hobj2]
    exact ScoreboardStorage.countP_content_setScore hnodup1
  · rw [hobj2, ScoreboardStorage.getElementById_setScore_self hscores1]
    rfl
  · rw [hobj2]
    refine ScoreboardStorage.getElementById_none (fun e he => ?_)
    rcases ScoreboardStorage.mem_setScore_strong he with rfl | ⟨hmem1, hcontent⟩
    · simp only
      omega
    · rcases ScoreboardStorage.mem_setScore_strong hmem1 with rfl | ⟨hmem0, -⟩
      · exact absurd rfl hcontent
      · have := ScoreboardStorage.le_maxScore hmem0
        omega

/-- Witness for C3 at a concrete store and document. -/
theorem ScoreboardStorage.duplicate_content_single_entry_witness :
    (stringify (.obj [("a", .num 1)])).length ≤ 32767 ∧
    (([] : Objective).map (·.1)).Nodup ∧
    ((ScoreboardStorage.save (ScoreboardStorage.save [] (some (.obj [("a", .num 1)]))).1
        (some (.obj [("a", .num 1)]))).1.countP
      (fun e => e.1 = Content.json (.obj [("a", .num 1)]))) = 1 :=
  ⟨by decide, by decide,
    (ScoreboardStorage.duplicate_content_single_entry [] _ (by decide) (by decide)).2.2.1⟩

/-- Witness for C2 on a concrete trace with an interleaved delete. -/
theorem ScoreboardStorage.save_ids_strictly_increasing_witness :
    ScoreboardStorage.traceOk ([] : Objective)
        [.save (.num 10), .save (.num 20), .deleteById 1, .save (.num 30)] = true ∧
    ScoreboardStorage.traceIds ([] : Objective)
        [.save (.num 10), .save (.num 20), .deleteById 1, .save (.num 30)] =
      (List.range (ScoreboardStorage.numSaves
          [.save (.num 10), .save (.num 20), .deleteById 1, .save (.num 30)])).map
        (fun (i : Nat) => (i : Int) + 1) :=
  ⟨by decide, ScoreboardStorage.save_ids_strictly_increasing _ (by decide)⟩

/-! ## C8 / C9: populate defaults, frame and selectivity -/

namespace Relation

theorem applyBinding_eq_objSet (w : World) (fs : List (String × JValue)) (b : Binding) :
    ∃ v, applyBinding w fs b = objSet fs b.asField v := by
  unfold applyBinding
  split
  · exact ⟨_, rfl⟩
  · exact ⟨_, rfl⟩
  · dsimp only
    split
    · exact ⟨_, rfl⟩
    · split
      · exact ⟨_, rfl⟩
      · exact ⟨_, rfl⟩

theorem objGet_applyBinding_ne (w : World) (fs : List (String × JValue)) (b : Binding)
    {k : String} (hk : b.asField ≠ k) :
    objGet (applyBinding w fs b) k = objGet fs k := by
  obtain ⟨v, heq⟩ := applyBinding_eq_objSet w fs b
  rw [heq]
  exact objGet_objSet_ne _ _ (fun h => hk h.symm)

theorem objGet_foldl_applyBinding (w : World) (bsel : List Binding)
    (fs : List (String × JValue)) {k : String}
    (hk : ∀ b ∈ bsel, b.asField ≠ k) :
    objGet (bsel.foldl (applyBinding w) fs) k = objGet fs k := by
  induction bsel generalizing fs with
  | nil => rfl
  | cons b rest ih =>
    rw [List.foldl_cons, ih _ (fun x hx => hk x (List.mem_cons_of_mem _ hx)),
      objGet_applyBinding_ne w fs b (hk b (List.mem_cons_self _ _))]

end Relation

/-- **C8** (amended): in the current `Relation.js`, when the selected
bindings for a populate call are exactly one binding `b` and the input
document has no local-field value (absent or null), populate writes the
alias field explicitly: the empty list for a reverse binding and null for a
direct binding.  (The older `Relation` variant instead skips the binding and
leaves the alias absent — see the counterexample.) -/
theorem Relation.populate_missing_local_defaults (w : Relation.World)
    (bs : List Relation.Binding) (b : Relation.Binding) (fs : List (String × JValue))
    (hsel : bs.filter (fun x => [b.asField].contains x.asField) = [b])
    (hmiss : objGet fs b.localField = none ∨ objGet fs b.localField = some .null) :
    jvGet (Relation.populate w bs (.obj fs) (some [b.asField])) b.asField =
      some (if b.isReverse then .arr [] else .null) := by
  have hbe : ¬ (bs.isEmpty = true) := by
    cases bs
    · simp at hsel
    · simp
  unfold Relation.populate
  rw [if_neg (by simp [jsTruthy]), if_neg hbe]
  show jvGet (Relation.processSingle w
    (bs.filter (fun x => [b.asField].contains x.asField)) (.obj fs)) b.asField = _
  rw [hsel]
  unfold Relation.processSingle
  rw [List.foldl_cons, List.foldl_nil]
  show objGet (Relation.applyBinding w (spreadFields (.obj fs)) b) b.asField = _
  unfold Relation.applyBinding
  simp only [spreadFields]
  rcases hmiss with h | h
  · rw [h]
    exact objGet_objSet_self _ _ _
  · rw [h]
    exact objGet_objSet_self _ _ _

/-- Witness for the amended C8 at a concrete registry and document. -/
theorem Relation.populate_missing_local_defaults_witness :
    ([⟨"guildId", "guilds", "uuid", "guildData", false⟩,
      ⟨"petId", "pets", "uuid", "petData", false⟩].filter
        (fun x : Relation.Binding => ["guildData"].contains x.asField) =
      [⟨"guildId", "guilds", "uuid", "guildData", false⟩]) ∧
    jvGet (Relation.populate []
      [⟨"guildId", "guilds", "uuid", "guildData", false⟩,
       ⟨"petId", "pets", "uuid", "petData", false⟩]
      (.obj [("x", .num 1)]) (some ["guildData"])) "guildData" = some .null :=
  ⟨by decide,
    by
      have := Relation.populate_missing_local_defaults []
        [⟨"guildId", "guilds", "uuid", "guildData", false⟩,
         ⟨"petId", "pets", "uuid", "petData", false⟩]
        ⟨"guildId", "guilds", "uuid", "guildData", false⟩
        [("x", .num 1)] (by decide) (Or.inl (by decide))
      exact this⟩

/-- Counterexample to C8 as stated: the older `Relation` variant, cited by
the claim, omits the alias field entirely on a missing local value, while
the current variant injects null at the same input. -/
theorem Relation.populateOld_omits_alias :
    jvGet (Relation.populateOld [] [⟨"guildId", "guilds", "uuid", "guildData", false⟩]
      (.obj [("x", .num 1)]) none) "guildData" = none ∧
    jvGet (Relation.populate [] [⟨"guildId", "guilds", "uuid", "guildData", false⟩]
      (.obj [("x", .num 1)]) none) "guildData" = some .null :=
  ⟨by decide, by decide⟩

/-- **C9** (amended): populate of a null input is null; a list input is
mapped element-wise through `processSingle`; and on an object input every
field that is not the alias of a *selected* binding keeps exactly its input
value — bindings inject only their alias fields, so another registered alias
can occur in the result only by already being a field of the input (the
embedding is pure, so the input object itself is never mutated). -/
theorem Relation.populate_frame_properties (w : Relation.World)
    (bindings : List Relation.Binding) (hb : bindings ≠ [])
    (rels : Option (List String)) (fs : List (String × JValue)) (k : String)
    (hk : ∀ b ∈ Relation.selectBindings bindings rels, b.asField ≠ k) :
    Relation.populate w bindings .null rels = .null ∧
    (∀ xs, Relation.populate w bindings (.arr xs) rels =
      .arr (xs.map (Relation.processSingle w (Relation.selectBindings bindings rels)))) ∧
    jvGet (Relation.populate w bindings (.obj fs) rels) k = objGet fs k := by
  have hbe : ¬ (bindings.isEmpty = true) := by
    cases bindings
    · exact absurd rfl hb
    · simp
  refine ⟨rfl, ?_, ?_⟩
  · intro xs
    unfold Relation.populate
    rw [if_neg (by simp [jsTruthy]), if_neg hbe]
  · unfold Relation.populate
    rw [if_neg (by simp [jsTruthy]), if_neg hbe]
    show objGet ((Relation.selectBindings bindings rels).foldl
      (Relation.applyBinding w) (spreadFields (.obj fs))) k = _
    simp only [spreadFields]
    exact Relation.objGet_foldl_applyBinding w _ fs hk

/-- Witness for the amended C9 at a concrete registry, selection and input. -/
theorem Relation.populate_frame_properties_witness :
    ([⟨"fa", "t", "tf", "aliasA", false⟩,
      ⟨"fb", "t", "tf", "aliasB", false⟩] ≠ ([] : List Relation.Binding)) ∧
    (∀ b ∈ Relation.selectBindings
        [⟨"fa", "t", "tf", "aliasA", false⟩, ⟨"fb", "t", "tf", "aliasB", false⟩]
        (some ["aliasA"]), b.asField ≠ "x") ∧
    jvGet (Relation.populate []
      [⟨"fa", "t", "tf", "aliasA", false⟩, ⟨"fb", "t", "tf", "aliasB", false⟩]
      (.obj [("x", .num 1)]) (some ["aliasA"])) "x" = objGet [("x", .num 1)] "x" :=
  ⟨by decide, by decide,
    (Relation.populate_frame_properties []
      [⟨"fa", "t", "tf", "aliasA", false⟩, ⟨"fb", "t", "tf", "aliasB", false⟩]
      (by decide) (some ["aliasA"]) [("x", .num 1)] "x" (by decide)).2.2⟩

/-- Counterexample to C9 as stated: with aliases `aliasA` and `aliasB`
registered, selective populate of only `aliasA` returns an object that still
carries a field named `aliasB` whenever the input document already carries
it — the other registered alias is not absent from the result. -/
theorem Relation.populate_selective_alias_from_input :
    jvGet (Relation.populate []
      [⟨"fa", "t", "tf", "aliasA", false⟩, ⟨"fb", "t", "tf", "aliasB", false⟩]
      (.obj [("aliasB", .num 1)]) (some ["aliasA"])) "aliasB" = some (.num 1) := by
  decide

/-! ## C10: falsy documents disagree between the cache and storage read paths -/

/-- **C10**: for a loaded collection whose mirror and backing store both hold
the record `(id, d)` (the store entry parses to `d`), the cache read
`getById` and the storage read `getElementById` disagree exactly when `d` is
a falsy JSON value other than null (`0`, `""`, `false`): `getById` collapses
every falsy mirror value to null through `|| null`, while `getElementById`
returns the parsed document itself. -/
theorem CacheManager.getById_falsy_disagreement (obj : Objective)
    (m : CacheManager.Mirror) (id : Int) (d : JValue) (p : Content × Int)
    (hm : CacheManager.mapGet m id = some d)
    (hf : obj.find? (fun e => e.2 = id) = some p)
    (hp : jsParse p.1 = d) :
    (CacheManager.getById (obj, some m) id).2 = (if jsTruthy d then d else .null) ∧
    ScoreboardStorage.getElementById obj id = d ∧
    ((CacheManager.getById (obj, some m) id).2 ≠ ScoreboardStorage.getElementById obj id ↔
      (jsTruthy d = false ∧ d ≠ .null)) := by
  have h1 : (CacheManager.getById (obj, some m) id).2 =
      (if jsTruthy d then d else .null) := by
    show (match CacheManager.mapGet m id with
      | some v => if jsTruthy v then v else .null
      | none => .null) = _
    rw [hm]
  have h2 : ScoreboardStorage.getElementById obj id = d := by
    unfold ScoreboardStorage.getElementById
    rw [hf]
    exact hp
  refine ⟨h1, h2, ?_⟩
  rw [h1, h2]
  cases ht : jsTruthy d with
  | true => simp [ht]
  | false =>
    rw [if_neg (by simp [ht])]
    constructor
    · intro hne
      exact ⟨rfl, fun hd => hne (hd ▸ rfl)⟩
    · intro hand hne
      exact hand.2 hne.symm

/-- Witness for C10 at a record whose document is the falsy value `0`. -/
theorem CacheManager.getById_falsy_disagreement_witness :
    CacheManager.mapGet [(1, JValue.num 0)] 1 = some (.num 0) ∧
    ([(Content.json (.num 0), (1 : Int))].find? (fun e => e.2 = 1) =
      some (Content.json (.num 0), 1)) ∧
    jsParse (Content.json (.num 0)) = .num 0 ∧
    ((CacheManager.getById ([(.json (.num 0), 1)], some [(1, .num 0)]) 1).2 ≠
        ScoreboardStorage.getElementById [(.json (.num 0), 1)] 1 ↔
      (jsTruthy (.num 0) = false ∧ (JValue.num 0) ≠ .null)) :=
  ⟨by decide, by decide, by decide,
    (CacheManager.getById_falsy_disagreement [(.json (.num 0), 1)] [(1, .num 0)] 1
      (.num 0) (.json (.num 0), 1) (by decide) (by decide) (by decide)).2.2⟩

namespace CacheManager

theorem getElements_none_eq_filterMap (obj : Objective) :
    ScoreboardStorage.getElements obj none =
      obj.filterMap (fun e =>
        if jsParse e.1 ≠ .null then some (e.2, jsParse e.1) else none) := by
  induction obj with
  | nil => rfl
  | cons e rest ih =>
    rw [ScoreboardStorage.getElements_none_cons, List.filterMap_cons]
    by_cases hp : jsParse e.1 ≠ .null
    · rw [if_pos hp, if_pos hp, ih]
    · rw [if_neg hp, if_neg hp, ih]

theorem records_keys_sublist (obj : Objective) :
    ((ScoreboardStorage.getElements obj none).map (·.1)).Sublist (obj.map (·.2)) := by
  induction obj with
  | nil => exact List.Sublist.refl _
  | cons e rest ih =>
    rw [ScoreboardStorage.getElements_none_cons, List.map_cons]
    by_cases hp : jsParse e.1 ≠ .null
    · rw [if_pos hp, List.map_cons]
      exact ih.cons₂ _
    · rw [if_neg hp]
      exact ih.cons _

theorem keys_nodup_mapSet (m : Mirror) (k : Int) (v : JValue)
    (h : (m.map (·.1)).Nodup) : ((mapSet m k v).map (·.1)).Nodup := by
  unfold mapSet
  exact keys_upsert_nodup m k v h

theorem keys_nodup_foldl_mapSet (l : List (Int × JValue)) (m : Mirror)
    (h : (m.map (·.1)).Nodup) :
    ((l.foldl (fun cache r => mapSet cache r.1 r.2) m).map (·.1)).Nodup := by
  induction l generalizing m with
  | nil => exact h
  | cons r rest ih => exact ih _ (keys_nodup_mapSet _ _ _ h)

theorem loadMirror_keys_nodup (obj : Objective) :
    ((loadMirror obj).map (·.1)).Nodup := by
  unfold loadMirror
  exact keys_nodup_foldl_mapSet _ _ List.nodup_nil

theorem mapGet_foldl_mapSet (l : List (Int × JValue)) (m : Mirror) (k : Int)
    (hnodup : (l.map (·.1)).Nodup) :
    mapGet (l.foldl (fun cache r => mapSet cache r.1 r.2) m) k =
      ((l.find? (fun r => r.1 = k)).map (·.2)).or (mapGet m k) := by
  induction l generalizing m with
  | nil => simp
  | cons r rest ih =>
    rw [List.map_cons, List.nodup_cons] at hnodup
    rw [List.foldl_cons, ih _ hnodup.2]
    by_cases hk : r.1 = k
    · have hrest : rest.find? (fun r2 => r2.1 = k) = none := by
        rw [List.find?_eq_none]
        intro x hx
        simp only [decide_eq_true_eq]
        intro hxk
        exact hnodup.1 (List.mem_map.mpr ⟨x, hx, by rw [hxk, hk]⟩)
      rw [hrest, List.find?_cons_of_pos _ (by simpa using hk)]
      subst hk
      rw [mapGet_mapSet_self]
      rfl
    · rw [List.find?_cons_of_neg _ (by simpa using hk)]
      rw [mapGet_mapSet_ne _ _ (fun h => hk h.symm)]

theorem storeLookup_eq_records_find (obj : Objective) (k : Int)
    (hscores : (obj.map (·.2)).Nodup) :
    storeLookup obj k =
      ((ScoreboardStorage.getElements obj none).find? (fun r => r.1 = k)).map (·.2) := by
  induction obj with
  | nil => rfl
  | cons e rest ih =>
    rw [List.map_cons, List.nodup_cons] at hscores
    rw [ScoreboardStorage.getElements_none_cons]
    unfold storeLookup
    by_cases hk : e.2 = k
    · rw [List.find?_cons_of_pos _ (by simpa using hk)]
      show (if jsParse e.1 = JValue.null then none else some (jsParse e.1)) = _
      by_cases hp : jsParse e.1 ≠ .null
      · rw [if_pos hp, List.find?_cons_of_pos _ (by simpa using hk), if_neg hp]
        rfl
      · have hpn : jsParse e.1 = .null := not_not.mp hp
        rw [if_neg hp, if_pos hpn]
        rw [show (ScoreboardStorage.getElements rest none).find? (fun r => r.1 = k) =
            none from ?_]
        · rfl
        · rw [List.find?_eq_none]
          intro x hx
          simp only [decide_eq_true_eq]
          intro hxk
          have hx1 : x.1 ∈ rest.map (·.2) :=
            (records_keys_sublist rest).subset (List.mem_map.mpr ⟨x, hx, rfl⟩)
          rw [hxk, ← hk] at hx1
          exact hscores.1 hx1
    · rw [List.find?_cons_of_neg _ (by simpa using hk)]
      by_cases hp : jsParse e.1 ≠ .null
      · rw [if_pos hp, List.find?_cons_of_neg _ (by simpa using hk)]
        exact ih hscores.2
      · rw [if_neg hp]
        exact ih hscores.2

theorem loadMirror_coherent (obj : Objective) (hscores : (obj.map (·.2)).Nodup) :
    Coherent (loadMirror obj) obj := by
  intro k
  unfold loadMirror
  have hkeys : ((ScoreboardStorage.getElements obj none).map (·.1)).Nodup :=
    (records_keys_sublist obj).nodup hscores
  rw [mapGet_foldl_mapSet _ _ _ hkeys, storeLookup_eq_records_find obj k hscores]
  simp [mapGet]

theorem ensureLoaded_good {s : CacheState} (h : WFState s) :
    ((_ensureLoaded s).map (·.1)).Nodup ∧ Coherent (_ensureLoaded s) s.1 := by
  obtain ⟨hc, hs, hm⟩ := h
  unfold _ensureLoaded
  cases hmo : s.2 with
  | some m => exact hm m hmo
  | none => exact ⟨loadMirror_keys_nodup s.1, loadMirror_coherent s.1 hs⟩

theorem storeLookup_append_fresh {obj : Objective} {c : Content} {id : Int}
    (hid : ∀ e ∈ obj, e.2 ≠ id) (j : Int) :
    storeLookup (obj ++ [(c, id)]) j =
      if j = id then (if jsParse c = .null then none else some (jsParse c))
      else storeLookup obj j := by
  unfold storeLookup
  rw [List.find?_append]
  by_cases hj : j = id
  · subst hj
    rw [List.find?_eq_none.mpr (by simpa using hid), Option.none_or,
      List.find?_cons_of_pos _ (by simp), if_pos rfl]
  · rw [if_neg hj]
    cases hfo : obj.find? (fun e => e.2 = j) with
    | some p => rfl
    | none =>
      rw [Option.none_or,
        List.find?_cons_of_neg _ (by simp only [decide_eq_true_eq]; exact fun h => hj h.symm)]
      rfl

theorem eraseP_content_no_score {obj : Objective} {p : Content × Int}
    (hc : (obj.map (·.1)).Nodup) (hs : (obj.map (·.2)).Nodup) (hp : p ∈ obj) :
    ∀ e ∈ obj.eraseP (fun x => x.1 = p.1), e.2 ≠ p.2 := by
  intro x hx hx2
  have hxo : x ∈ obj := (List.eraseP_sublist obj).subset hx
  have hxp : x = p := List.inj_on_of_nodup_map hs hxo hp hx2
  exact eraseP_key_not_mem hc x hx (by rw [hxp])

theorem storeLookup_eraseP_content {obj : Objective} {p : Content × Int}
    (hc : (obj.map (·.1)).Nodup) (hp : p ∈ obj) {j : Int} (hj : j ≠ p.2) :
    storeLookup (obj.eraseP (fun e => e.1 = p.1)) j = storeLookup obj j := by
  unfold storeLookup
  rw [find?_eraseP_of_imp]
  intro a ha hq
  rw [decide_eq_true_eq] at hq
  have hap : a = p := List.inj_on_of_nodup_map hc ha hp hq
  simp only [decide_eq_false_iff_not]
  rw [hap]
  exact fun h => hj h.symm

theorem mapGet_mapDelete_ne (m : Mirror) {k j : Int} (hj : j ≠ k) :
    mapGet (mapDelete m k) j = mapGet m j := by
  unfold mapGet mapDelete
  rw [find?_eraseP_of_imp]
  intro a _ hq
  rw [decide_eq_true_eq] at hq
  simp only [decide_eq_false_iff_not]
  rw [hq]
  exact fun h => hj h.symm

theorem mapGet_mapDelete_self (m : Mirror) (k : Int)
    (hkeys : (m.map (·.1)).Nodup) : mapGet (mapDelete m k) k = none := by
  unfold mapGet mapDelete
  rw [List.find?_eq_none.mpr]
  · rfl
  · intro x hx
    simpa using eraseP_key_not_mem hkeys x hx

theorem save_step_eq (s : CacheState) (d : JSData) :
    (CacheManager.save s d).1 =
      (match ScoreboardStorage.save s.1 d with
       | (obj, .ok newId) => (obj, some (mapSet (_ensureLoaded s) newId (d.getD .null)))
       | (obj, .error _) => (obj, some (_ensureLoaded s))) := by
  unfold CacheManager.save
  cases h : ScoreboardStorage.save s.1 d with
  | mk obj r => cases r <;> rfl

theorem updateById_step_eq (s : CacheState) (id : Int) (d : JSData) :
    (CacheManager.updateById s id d).1 =
      (match ScoreboardStorage.updateById s.1 id d with
       | (obj, .ok true) => (obj, some (mapSet (_ensureLoaded s) id (d.getD .null)))
       | (obj, .ok false) => (obj, some (_ensureLoaded s))
       | (obj, .error _) => (obj, some (_ensureLoaded s))) := by
  unfold CacheManager.updateById
  cases h : ScoreboardStorage.updateById s.1 id d with
  | mk obj r =>
    cases r with
    | error e => rfl
    | ok b => cases b <;> rfl

theorem deleteById_step_eq (s : CacheState) (id : Int) :
    (CacheManager.deleteById s id).1 =
      (match ScoreboardStorage.deleteById s.1 id with
       | (obj, true) => (obj, some (mapDelete (_ensureLoaded s) id))
       | (obj, false) => (obj, some (_ensureLoaded s))) := by
  unfold CacheManager.deleteById
  cases h : ScoreboardStorage.deleteById s.1 id with
  | mk obj r => cases r <;> rfl

end CacheManager

theorem ScoreboardStorage.save_err {obj : Objective} {v : JValue}
    (h : (stringify v).length > 32767) :
    ScoreboardStorage.save obj (some v) =
      (obj, .error (.rangeError ("[ScoreboardStorage] Data size (" ++
        toString (stringify v).length ++
        " chars) exceeds Minecrafts maximum limit of 32,767 characters. Consider splitting the data."))) := by
  have hst : ScoreboardStorage._stringify (some v) =
      .error (.rangeError ("[ScoreboardStorage] Data size (" ++
        toString (stringify v).length ++
        " chars) exceeds Minecrafts maximum limit of 32,767 characters. Consider splitting the data.")) := by
    simp [ScoreboardStorage._stringify, h]
  unfold ScoreboardStorage.save
  rw [hst]

theorem ScoreboardStorage.updateById_err {obj : Objective} {id : Int} {v : JValue}
    (h : (stringify v).length > 32767) :
    ScoreboardStorage.updateById obj id (some v) =
      (obj, .error (.rangeError ("[ScoreboardStorage] Data size (" ++
        toString (stringify v).length ++
        " chars) exceeds Minecrafts maximum limit of 32,767 characters. Consider splitting the data."))) := by
  have hst : ScoreboardStorage._stringify (some v) =
      .error (.rangeError ("[ScoreboardStorage] Data size (" ++
        toString (stringify v).length ++
        " chars) exceeds Minecrafts maximum limit of 32,767 characters. Consider splitting the data.")) := by
    simp [ScoreboardStorage._stringify, h]
  unfold ScoreboardStorage.updateById
  rw [hst]

theorem ScoreboardStorage.updateById_eq_ok {obj : Objective} {id : Int} {v : JValue}
    (h : (stringify v).length ≤ 32767) :
    ScoreboardStorage.updateById obj id (some v) =
      (match obj.find? (fun e => e.2 = id) with
       | some p => (setScore (removeParticipant obj p.1) (.json v) id, .ok true)
       | none => (obj, .ok false)) := by
  unfold ScoreboardStorage.updateById
  rw [ScoreboardStorage._stringify_ok h]

namespace CacheManager

theorem storeLookup_none {obj : Objective} {j : Int} (h : ∀ e ∈ obj, e.2 ≠ j) :
    storeLookup obj j = none := by
  unfold storeLookup
  rw [List.find?_eq_none.mpr (by simpa using h)]

theorem WFState_of_parts {obj : Objective} (hc : (obj.map (·.1)).Nodup)
    (hs : (obj.map (·.2)).Nodup) {m : Mirror} (hk : (m.map (·.1)).Nodup)
    (hco : Coherent m obj) : WFState (obj, some m) := by
  refine ⟨hc, hs, ?_⟩
  intro m' hm'
  injection hm' with h
  exact h ▸ ⟨hk, hco⟩

theorem WFState_stepC {s : CacheState} {op : COp} (hwf : WFState s)
    (hok : okCOp s op = true) : WFState (stepC s op) := by
  have hens := ensureLoaded_good hwf
  obtain ⟨hcont, hscore, -⟩ := hwf
  cases op with
  | save d =>
    show WFState (CacheManager.save s d).1
    rw [save_step_eq]
    cases d with
    | none => exact WFState_of_parts hcont hscore hens.1 hens.2
    | some v =>
      by_cases hlen : (stringify v).length ≤ 32767
      · have hsz : stringifyOk v = true := by simpa [stringifyOk] using hlen
        simp only [okCOp, hsz, Bool.not_true, Bool.false_or, Bool.and_eq_true,
          Bool.not_eq_true', decide_eq_true_eq] at hok
        obtain ⟨hvn, hfresh⟩ := hok
        have hfresh2 : ∀ e ∈ s.1, e.1 ≠ Content.json v := by
          rw [List.any_eq_false] at hfresh
          intro e he
          simpa using hfresh e he
        rw [ScoreboardStorage.save_ok hlen]
        show WFState (setScore s.1 (.json v) (ScoreboardStorage.maxScore s.1 + 1),
          some (mapSet (_ensureLoaded s) (ScoreboardStorage.maxScore s.1 + 1) v))
        have happ : setScore s.1 (.json v) (ScoreboardStorage.maxScore s.1 + 1) =
            s.1 ++ [(.json v, ScoreboardStorage.maxScore s.1 + 1)] :=
          ScoreboardStorage.setScore_of_fresh hfresh2
        refine ⟨ScoreboardStorage.contents_nodup_setScore hcont, ?_, ?_⟩
        · rw [happ, List.map_append, List.nodup_append]
          refine ⟨hscore, List.nodup_singleton _, ?_⟩
          intro a ha hb
          simp only [List.map_cons, List.map_nil, List.mem_singleton] at hb
          rw [List.mem_map] at ha
          obtain ⟨e, hmem, he⟩ := ha
          have := ScoreboardStorage.le_maxScore hmem
          rw [he, hb] at this
          omega
        · intro m' hm'
          injection hm' with hmm
          subst hmm
          refine ⟨keys_nodup_mapSet _ _ _ hens.1, ?_⟩
          intro j
          by_cases hj : j = ScoreboardStorage.maxScore s.1 + 1
          · subst hj
            rw [mapGet_mapSet_self, happ,
              storeLookup_append_fresh ScoreboardStorage.scores_ne_next, if_pos rfl,
              if_neg (show ¬ jsParse (Content.json v) = JValue.null from hvn)]
            rfl
          · rw [mapGet_mapSet_ne _ _ hj, hens.2 j, happ,
              storeLookup_append_fresh ScoreboardStorage.scores_ne_next, if_neg hj]
      · rw [ScoreboardStorage.save_err (by omega)]
        exact WFState_of_parts hcont hscore hens.1 hens.2
  | updateById id d =>
    show WFState (CacheManager.updateById s id d).1
    rw [updateById_step_eq]
    cases d with
    | none => exact WFState_of_parts hcont hscore hens.1 hens.2
    | some v =>
      by_cases hlen : (stringify v).length ≤ 32767
      · have hsz : stringifyOk v = true := by simpa [stringifyOk] using hlen
        simp only [okCOp, hsz, Bool.not_true, Bool.false_or] at hok
        rw [ScoreboardStorage.updateById_eq_ok hlen]
        cases hfind : s.1.find? (fun e => e.2 = id) with
        | none => exact WFState_of_parts hcont hscore hens.1 hens.2
        | some p =>
          rw [hfind] at hok
          simp only [Bool.and_eq_true, Bool.not_eq_true', decide_eq_true_eq] at hok
          obtain ⟨hvn, hfresh⟩ := hok
          have hpmem : p ∈ s.1 := List.mem_of_find?_eq_some hfind
          have hpid : p.2 = id := by simpa using List.find?_some hfind
          have hfresh2 : ∀ e ∈ s.1.eraseP (fun x => x.1 = p.1), e.1 ≠ Content.json v := by
            rw [List.any_eq_false] at hfresh
            intro e he
            simpa using hfresh e he
          have hobj1c : ((s.1.eraseP (fun x => x.1 = p.1)).map (·.1)).Nodup :=
            ((List.eraseP_sublist _).map _).nodup hcont
          have hobj1s : ((s.1.eraseP (fun x => x.1 = p.1)).map (·.2)).Nodup :=
            ((List.eraseP_sublist _).map _).nodup hscore
          have hnoscore : ∀ e ∈ s.1.eraseP (fun x => x.1 = p.1), e.2 ≠ id := by
            intro e he
            have := eraseP_content_no_score hcont hscore hpmem e he
            rw [hpid] at this
            exact this
          show WFState (setScore (removeParticipant s.1 p.1) (.json v) id,
            some (mapSet (_ensureLoaded s) id v))
          unfold removeParticipant
          have happ : setScore (s.1.eraseP (fun x => x.1 = p.1)) (.json v) id =
              (s.1.eraseP (fun x => x.1 = p.1)) ++ [(.json v, id)] :=
            ScoreboardStorage.setScore_of_fresh hfresh2
          refine ⟨ScoreboardStorage.contents_nodup_setScore hobj1c, ?_, ?_⟩
          · rw [happ, List.map_append, List.nodup_append]
            refine ⟨hobj1s, List.nodup_singleton _, ?_⟩
            intro a ha hb
            simp only [List.map_cons, List.map_nil, List.mem_singleton] at hb
            rw [List.mem_map] at ha
            obtain ⟨e, hmem, he⟩ := ha
            exact hnoscore e hmem (by rw [he, hb])
          · intro m' hm'
            injection hm' with hmm
            subst hmm
            refine ⟨keys_nodup_mapSet _ _ _ hens.1, ?_⟩
            intro j
            by_cases hj : j = id
            · subst hj
              rw [mapGet_mapSet_self, happ, storeLookup_append_fresh hnoscore, if_pos rfl,
                if_neg (show ¬ jsParse (Content.json v) = JValue.null from hvn)]
              rfl
            · rw [mapGet_mapSet_ne _ _ hj, hens.2 j, happ,
                storeLookup_append_fresh hnoscore, if_neg hj,
                storeLookup_eraseP_content hcont hpmem (by rw [hpid]; exact hj)]
      · rw [ScoreboardStorage.updateById_err (by omega)]
        exact WFState_of_parts hcont hscore hens.1 hens.2
  | deleteById id =>
    show WFState (CacheManager.deleteById s id).1
    rw [deleteById_step_eq]
    unfold ScoreboardStorage.deleteById
    cases hfind : s.1.find? (fun e => e.2 = id) with
    | none => exact WFState_of_parts hcont hscore hens.1 hens.2
    | some p =>
      have hpmem : p ∈ s.1 := List.mem_of_find?_eq_some hfind
      have hpid : p.2 = id := by simpa using List.find?_some hfind
      have hnoscore : ∀ e ∈ s.1.eraseP (fun x => x.1 = p.1), e.2 ≠ id := by
        intro e he
        have := eraseP_content_no_score hcont hscore hpmem e he
        rw [hpid] at this
        exact this
      show WFState (removeParticipant s.1 p.1, some (mapDelete (_ensureLoaded s) id))
      unfold removeParticipant
      refine WFState_of_parts (((List.eraseP_sublist _).map _).nodup hcont)
        (((List.eraseP_sublist _).map _).nodup hscore)
        (((List.eraseP_sublist _).map _).nodup hens.1) ?_
      intro j
      by_cases hj : j = id
      · subst hj
        rw [mapGet_mapDelete_self _ _ hens.1, storeLookup_none hnoscore]
      · rw [mapGet_mapDelete_ne _ hj, hens.2 j,
          storeLookup_eraseP_content hcont hpmem (by rw [hpid]; exact hj)]

theorem WFState_runC {s : CacheState} {ops : List COp} (hwf : WFState s)
    (hok : traceOkC s ops = true) : WFState (runC s ops) := by
  induction ops generalizing s with
  | nil => exact hwf
  | cons op rest ih =>
    rw [traceOkC, Bool.and_eq_true] at hok
    exact ih (WFState_stepC hwf hok.1) hok.2

end CacheManager

/-- **C4** (amended): starting from a well-formed backing store (duplicate-free
contents and ids) with no mirror loaded, after any trace of cache-layer
mutations in which every physically successful write carries a non-null
document whose serialized form does not collide with another surviving
entry, the loaded mirror holds exactly the (id, parsed document) pairs of
the backing store; failed writes are never mirrored.  (Without the
no-collision proviso the claim is false: the backing store re-keys the
colliding entry while the stale mirror entry survives — see the
counterexample.) -/
theorem CacheManager.cache_coherence_of_safe_trace (obj0 : Objective)
    (ops : List CacheManager.COp)
    (hcont : (obj0.map (·.1)).Nodup) (hscore : (obj0.map (·.2)).Nodup)
    (hok : CacheManager.traceOkC (obj0, none) ops = true) :
    ∀ m, (CacheManager.runC (obj0, none) ops).2 = some m →
      ∀ id, CacheManager.mapGet m id =
        CacheManager.storeLookup (CacheManager.runC (obj0, none) ops).1 id := by
  have hwf0 : CacheManager.WFState (obj0, none) := by
    refine ⟨hcont, hscore, ?_⟩
    intro m hm
    cases hm
  intro m hm id
  exact ((CacheManager.WFState_runC hwf0 hok).2.2 m hm).2 id

/-- Witness for the amended C4 on a concrete trace with a save, an update
and a delete. -/
theorem CacheManager.cache_coherence_of_safe_trace_witness :
    CacheManager.traceOkC (([] : Objective), none)
      [.save (some (.obj [("a", .num 1)])), .save (some (.obj [("b", .num 2)])),
       .updateById 1 (some (.obj [("a", .num 5)])), .deleteById 2] = true ∧
    (CacheManager.runC (([] : Objective), none)
      [.save (some (.obj [("a", .num 1)])), .save (some (.obj [("b", .num 2)])),
       .updateById 1 (some (.obj [("a", .num 5)])), .deleteById 2]).2 =
      some [(1, JValue.obj [("a", .num 5)])] ∧
    CacheManager.mapGet [(1, JValue.obj [("a", .num 5)])] 1 =
      CacheManager.storeLookup
        (CacheManager.runC (([] : Objective), none)
          [.save (some (.obj [("a", .num 1)])), .save (some (.obj [("b", .num 2)])),
           .updateById 1 (some (.obj [("a", .num 5)])), .deleteById 2]).1 1 :=
  ⟨by decide, by decide,
    CacheManager.cache_coherence_of_safe_trace []
      [.save (some (.obj [("a", .num 1)])), .save (some (.obj [("b", .num 2)])),
       .updateById 1 (some (.obj [("a", .num 5)])), .deleteById 2]
      (by decide) (by decide) (by decide) [(1, JValue.obj [("a", .num 5)])] (by decide) 1⟩

/-- Counterexample to C4 as stated: two cache-layer saves of documents with
identical serialized form — both physical writes succeed and both are
mirrored — leave the mirror with a pair (id 1) that the backing store no
longer contains, because the second physical write re-keyed the
content-addressed entry from id 1 to id 2. -/
theorem CacheManager.duplicate_save_breaks_coherence :
    (CacheManager.runC (([] : Objective), none)
      [.save (some (.obj [("a", .num 1)])), .save (some (.obj [("a", .num 1)]))]).2 =
      some [(1, JValue.obj [("a", .num 1)]), (2, JValue.obj [("a", .num 1)])] ∧
    CacheManager.mapGet
      [(1, JValue.obj [("a", .num 1)]), (2, JValue.obj [("a", .num 1)])] 1 =
      some (.obj [("a", .num 1)]) ∧
    CacheManager.storeLookup
      (CacheManager.runC (([] : Objective), none)
        [.save (some (.obj [("a", .num 1)])), .save (some (.obj [("a", .num 1)]))]).1 1 =
      none :=
  ⟨by decide, by decide, by decide⟩
